import Mathlib

/-! Verification development for the stxxl external sorting core
(`include/stxxl/bits/stream/sort_stream.h`, `include/stxxl/bits/containers/sorter.h`,
`include/stxxl/bits/algo/sort_helper.h`).

The C++ code is shallowly embedded: the push-mode runs creator, the stream-mode
runs creator, the runs merger (including its recursive merging pass) and the
two-state sorter facade become pure Lean functions over explicit state.  Blocks
are modelled by their element payload (a `List`), block ids by a running counter
of allocations (the mock block manager), and machine integers by `Nat` (the
sizes involved never overflow in the modelled arithmetic, which the source
performs in `size_t`).

External collaborators that are declared but whose implementation is not part
of the four source files (`sorted_runs.h`, `losertree.h`,
`potentially_parallel::sort`, `sort_base.h`, the prefetcher) are modelled from
the specification's contracts; each such definition carries a doc comment
starting with `Modelled from the spec:`.
-/

namespace Stxxl

/-- The non-strict order induced by a strict comparator `cmp` (C++ `less`-style):
`cmpLe cmp a b` holds iff `¬ cmp b a`, i.e. `a` need not come after `b`.
A sequence is non-decreasing under `cmp` iff it is `Pairwise (cmpLe cmp)`. -/
def cmpLe {α : Type} (cmp : α → α → Bool) (a b : α) : Bool :=
  !(cmp b a)

/-- Modelled from the spec: the internal sort (`potentially_parallel::sort`,
an external collaborator, not among the source files) sorts a contiguous range
by the strict comparator `cmp`.  It is modelled by the stable `List.mergeSort`
under the induced non-strict order `cmpLe cmp`. -/
def internalSort {α : Type} (cmp : α → α → Bool) (l : List α) : List α :=
  l.mergeSort (cmpLe cmp)

/-- Modelled from the spec: the k-way merger (loser tree / multiway merge, an
external collaborator, not among the source files) merges k already-sorted
sequences into one sorted sequence with the same multiset of elements.  It is
modelled by folding the two-way `List.merge` under `cmpLe cmp`. -/
def kMerge {α : Type} (cmp : α → α → Bool) (runs : List (List α)) : List α :=
  runs.foldr (fun r acc => List.merge r acc (cmpLe cmp)) []

/-- Source: `foxxll::div_ceil a b = (a + b - 1) / b` (rounding division used for the
number of blocks of a partial run). -/
def ceilDiv (a b : Nat) : Nat :=
  (a + b - 1) / b

/-- Modelled from the spec: the sorted-runs descriptor (`sorted_runs.h`, only
declared in the source files).  A run is stored by its full block payload
(concatenation of its blocks, the tail of the last block padded with
`max_value`), `runsSizes` holds the exact element count of each run,
`elements` the total element count, and `smallRun` the in-memory buffer of the
small-input optimization. -/
structure SortedRunsD (α : Type) where
  runs : List (List α)
  runsSizes : List Nat
  elements : Nat
  smallRun : List α
deriving DecidableEq

/-- Modelled from the spec: `sorted_runs::add_run` appends a run together with
its exact element count and accumulates the total element count. -/
def SortedRunsD.addRun {α : Type} (d : SortedRunsD α) (run : List α) (sz : Nat) :
    SortedRunsD α :=
  { d with
    runs := d.runs ++ [run]
    runsSizes := d.runsSizes ++ [sz]
    elements := d.elements + sz }

/-- Modelled from the spec: `sorted_runs::clear` empties the descriptor
(no runs, no elements, no small run; the block ids are returned to the block
manager, which the payload model does not track). -/
def SortedRunsD.clear {α : Type} (_ : SortedRunsD α) : SortedRunsD α :=
  { runs := [], runsSizes := [], elements := 0, smallRun := [] }

/-- The empty descriptor a freshly constructed creator starts from. -/
def SortedRunsD.empty (α : Type) : SortedRunsD α :=
  { runs := [], runsSizes := [], elements := 0, smallRun := [] }

/-- The real (non-padding) elements of a run given as (payload, exact size). -/
def realPart {α : Type} (pr : List α × Nat) : List α :=
  pr.1.take pr.2

/-- All real elements stored in a descriptor, in run order. -/
def descReal {α : Type} (d : SortedRunsD α) : List α :=
  ((d.runs.zip d.runsSizes).map realPart).flatten

/-- Well-formedness of a single run (payload, exact size): the payload fills
whole blocks, is sorted, its first `sz` entries are real elements strictly
below the sentinel, and its tail is `max_value` padding. -/
def RunWf {α : Type} (cmp : α → α → Bool) (maxV : α) (B : Nat)
    (pr : List α × Nat) : Prop :=
  pr.1.length = ceilDiv pr.2 B * B ∧
  pr.2 ≤ pr.1.length ∧
  List.Pairwise (fun a b => cmp b a = false) pr.1 ∧
  (∀ x ∈ pr.1.take pr.2, cmp x maxV = true) ∧
  pr.1.drop pr.2 = List.replicate (pr.1.length - pr.2) maxV

/-- Well-formedness of a descriptor holding external runs (no small run). -/
def DescWf {α : Type} (cmp : α → α → Bool) (maxV : α) (B : Nat)
    (d : SortedRunsD α) : Prop :=
  d.runsSizes.length = d.runs.length ∧
  d.elements = d.runsSizes.sum ∧
  d.smallRun = [] ∧
  ∀ pr ∈ d.runs.zip d.runsSizes, RunWf cmp maxV B pr

/-- Compile-time and construction-time parameters shared by creator and
merger: the comparator with its `max_value` sentinel, `B = block_type::size`
(elements per block), `m2 = m_m2` (blocks per memory half of the creator), and
the merger-side byte budget `mergerMemory = m_memory_to_use`,
`rawBlockSize = block_type::raw_size` (also used for `sizeof(block_type)`,
which coincides for the packed typed block) and `disks = disks_number()`. -/
structure Config (α : Type) where
  cmp : α → α → Bool
  maxV : α
  B : Nat
  m2 : Nat
  mergerMemory : Nat
  rawBlockSize : Nat
  disks : Nat

/-- Source: `m_el_in_run = m_m2 * block_type::size`, the element capacity of one
memory half, i.e. of one run produced while pushing. -/
def Config.elInRun {α : Type} (cfg : Config α) : Nat :=
  cfg.m2 * cfg.B

/-- State of `runs_creator<use_push>`: the elements accumulated in the fill
half `m_blocks1` (its length is `m_cur_el`), the result descriptor, the
`m_result_computed` flag, and the number of block ids obtained from the block
manager so far (the mock block manager of the specification). -/
structure PushCreator (α : Type) where
  curEl : List α
  result : SortedRunsD α
  resultComputed : Bool
  bids : Nat
deriving DecidableEq

/-- A freshly constructed push-mode creator: empty fill buffer, empty result,
result not yet computed, no block ids allocated. -/
def PushCreator.init (α : Type) : PushCreator α :=
  { curEl := [], result := SortedRunsD.empty α, resultComputed := false, bids := 0 }

/-- Source: `runs_creator<use_push>::push` (sort_stream.h:649-686): append the value
into the fill half while it is not full; once `m_cur_el = m_el_in_run`,
sort the half, allocate `div_ceil(m_el_in_run, B)` block ids, write the run,
`add_run` it to the result, swap halves, and re-push the value (so the fill
half restarts holding exactly the pushed value). -/
def PushCreator.push {α : Type} (cfg : Config α) (c : PushCreator α) (v : α) :
    PushCreator α :=
  if c.curEl.length < cfg.elInRun then
    { c with curEl := c.curEl ++ [v] }
  else
    { c with
      curEl := [v]
      result := c.result.addRun (internalSort cfg.cmp c.curEl) cfg.elInRun
      bids := c.bids + ceilDiv cfg.elInRun cfg.B }

/-- Pushing a whole list of values, one at a time. -/
def PushCreator.pushAll {α : Type} (cfg : Config α) (c : PushCreator α)
    (l : List α) : PushCreator α :=
  l.foldl (PushCreator.push cfg) c

/-- Source: `runs_creator<use_push>::compute_result` (sort_stream.h:520-562): nothing
to do when no element is buffered; otherwise sort the partial run; if it fits
one block and no run was flushed, store it into the descriptor's small-run
buffer without allocating any block id; otherwise allocate
`div_ceil(m_cur_el, B)` block ids, pad the tail of the last block with
`max_value` and `add_run` the final run. -/
def PushCreator.computeResult {α : Type} (cfg : Config α) (c : PushCreator α) :
    PushCreator α :=
  if c.curEl.length = 0 then c
  else
    let sorted := internalSort cfg.cmp c.curEl
    if c.curEl.length ≤ cfg.B ∧ c.result.elements = 0 then
      { c with
        result :=
          { c.result with smallRun := sorted, elements := c.curEl.length } }
    else
      let nb := ceilDiv c.curEl.length cfg.B
      let padded :=
        sorted ++ List.replicate (nb * cfg.B - c.curEl.length) cfg.maxV
      { c with
        result := c.result.addRun padded c.curEl.length
        bids := c.bids + nb }

/-- Source: `runs_creator<use_push>::result` (sort_stream.h:691-702): compute the
result on first use and remember that it has been computed.  Also the effect
of `deallocate()` on the result (deallocation of the memory halves is not
observable in this model). -/
def PushCreator.resultFinish {α : Type} (cfg : Config α) (c : PushCreator α) :
    PushCreator α :=
  if c.resultComputed then c
  else { c.computeResult cfg with resultComputed := true }

/-- Invariant relating a push-mode creator state to the list of elements
pushed so far: the flushed runs are the sorted full chunks of size
`m_el_in_run` of the input prefix and the fill half holds the remaining
tail. -/
def ChunksInv {α : Type} (cfg : Config α) (l : List α) (c : PushCreator α) :
    Prop :=
  ∃ chunks : List (List α),
    l = chunks.flatten ++ c.curEl ∧
    c.curEl.length ≤ cfg.elInRun ∧
    (∀ ch ∈ chunks, ch.length = cfg.elInRun) ∧
    c.result.runs = chunks.map (internalSort cfg.cmp) ∧
    c.result.runsSizes = chunks.map List.length ∧
    c.result.elements = (chunks.map List.length).sum ∧
    c.result.smallRun = [] ∧
    c.resultComputed = false ∧
    c.bids = chunks.length * cfg.m2

/-- One pass of the main fetch loop of `basic_runs_creator::compute_result`
(sort_stream.h:342-363): repeatedly fetch up to `m_el_in_run` elements from
the input stream, sort them, pad the tail of the last block of the final
partial run with `max_value`, allocate the block ids and add the run.
Returns the produced (runs, exact sizes, allocated block ids). -/
def basicLoop {α : Type} (cfg : Config α) (rem : List α) :
    List (List α) × List Nat × Nat :=
  if rem.length = 0 ∨ cfg.elInRun = 0 then ([], [], 0)
  else
    let len := min cfg.elInRun rem.length
    let nb := ceilDiv len cfg.B
    let run :=
      internalSort cfg.cmp (rem.take len) ++
        List.replicate (nb * cfg.B - len) cfg.maxV
    let rest := basicLoop cfg (rem.drop len)
    (run :: rest.1, len :: rest.2.1, nb + rest.2.2)
termination_by rem.length
decreasing_by
  rename_i h
  simp only [not_or] at h
  have h1 : rem.length ≠ 0 := by
    simpa [List.length_eq_zero] using h.1
  have h2 : cfg.elInRun ≠ 0 := h.2
  simp only [List.length_drop]
  omega

/-- Source: `basic_runs_creator::compute_result` (sort_stream.h:184-368), operating on
the whole input stream given as a list; returns the descriptor and the number
of block ids allocated from the block manager.  The four phases of the source:
the small-input return (lines 231-240), the single-run return (lines 265-272),
the "whole set fits into both halves" resort (lines 277-322, the first run's
blocks are deleted and fresh ones allocated), and the general fetch loop
(modelled by `basicLoop`).  The preprocessor-gated small-input branch at lines
197-223 is dead code in the default build and is not modelled. -/
def basicComputeResult {α : Type} (cfg : Config α) (l : List α) :
    SortedRunsD α × Nat :=
  let len1 := min cfg.elInRun l.length
  let rest1 := l.drop len1
  let sorted1 := internalSort cfg.cmp (l.take len1)
  if len1 ≤ cfg.B ∧ rest1.length = 0 then
    ({ runs := [], runsSizes := [], elements := len1, smallRun := sorted1 }, 0)
  else
    let nb1 := ceilDiv len1 cfg.B
    let run1 := sorted1 ++ List.replicate (nb1 * cfg.B - len1) cfg.maxV
    if rest1.length = 0 then
      ({ runs := [run1], runsSizes := [len1], elements := len1,
         smallRun := [] }, nb1)
    else
      let len2 := min cfg.elInRun rest1.length
      let rest2 := rest1.drop len2
      if rest2.length = 0 then
        let tot := len1 + len2
        let nb := ceilDiv tot cfg.B
        let runA :=
          internalSort cfg.cmp (l.take tot) ++
            List.replicate (nb * cfg.B - tot) cfg.maxV
        ({ runs := [runA], runsSizes := [tot], elements := tot,
           smallRun := [] }, nb1 + nb)
      else
        let run2 :=
          internalSort cfg.cmp (rest1.take len2) ++
            List.replicate (ceilDiv len2 cfg.B * cfg.B - len2) cfg.maxV
        let rest := basicLoop cfg rest2
        ({ runs := run1 :: run2 :: rest.1,
           runsSizes := len1 :: len2 :: rest.2.1,
           elements := len1 + len2 + rest.2.1.sum,
           smallRun := [] },
         nb1 + ceilDiv len2 cfg.B + rest.2.2)

/-- Source: `sort_helper::verify_sentinel_strict_weak_ordering` (sort_helper.h:31-39):
the four assertions checked on the comparator's sentinels at construction. -/
def verifySentinel {α : Type} (cmp : α → α → Bool) (mn mx : α) : Bool :=
  !cmp mn mn && cmp mn mx && !cmp mx mn && !cmp mx mx

/-- The two ways a runs-creator constructor can fail: the sentinel assertions
of `verify_sentinel_strict_weak_ordering`, or the `INSUFFICIENT MEMORY`
`bad_parameter` exception. -/
inductive CtorError where
  | sentinelViolation : CtorError
  | insufficientMemory : CtorError
deriving DecidableEq

/-- The construction-time checks shared by `basic_runs_creator`
(sort_stream.h:141-157), `runs_creator<use_push>` (sort_stream.h:568-587) and
`runs_creator<from_sorted_sequences>` (sort_stream.h:797-815): first the
sentinel validation, then the memory check
`2 * BlockSize * sort_memory_usage_factor() <= memory_to_use`; on success the
creator holds `m_memsize = memory_to_use / BlockSize / factor` blocks.
`blockSize` is in bytes and `musf` is `sort_memory_usage_factor()`. -/
def creatorCtorCheck {α : Type} (cmp : α → α → Bool) (mn mx : α)
    (blockSize musf memoryToUse : Nat) : Except CtorError Nat :=
  if !(verifySentinel cmp mn mx) then Except.error CtorError.sentinelViolation
  else if !(2 * blockSize * musf ≤ memoryToUse) then
    Except.error CtorError.insufficientMemory
  else Except.ok (memoryToUse / blockSize / musf)

/-- The construction-time check of `basic_runs_merger`
(sort_stream.h:1148-1165): only the sentinel validation. -/
def mergerCtorCheck {α : Type} (cmp : α → α → Bool) (mn mx : α) :
    Except CtorError Unit :=
  if !(verifySentinel cmp mn mx) then Except.error CtorError.sentinelViolation
  else Except.ok ()

/-- Source: `min_prefetch_buffers = 2 * disks_number` (sort_stream.h:1208). -/
def Config.minPrefetchBuffers {α : Type} (cfg : Config α) : Nat :=
  2 * cfg.disks

/-- Source: `input_buffers` (sort_stream.h:1209-1212): blocks available for run input,
`(memory_to_use - sizeof(out_block_type)) / raw_size` with the guarded
subtraction of the source matching truncated `Nat` subtraction. -/
def Config.inputBuffers {α : Type} (cfg : Config α) : Nat :=
  (cfg.mergerMemory - cfg.rawBlockSize) / cfg.rawBlockSize

/-- Source: `recursive_merge_buffers = memory_to_use / raw_size`
(sort_stream.h:1226). -/
def Config.recursiveMergeBuffers {α : Type} (cfg : Config α) : Nat :=
  cfg.mergerMemory / cfg.rawBlockSize

/-- Source: `memory_for_buffers` of `merge_recursively` (sort_stream.h:1400-1409):
write buffers (`2 * disks` blocks), the recursive merger's prefetch buffers
(`2 * disks` blocks) and one output block. -/
def Config.memoryForBuffers {α : Type} (cfg : Config α) : Nat :=
  2 * cfg.disks * cfg.rawBlockSize + 2 * cfg.disks * cfg.rawBlockSize +
    cfg.rawBlockSize

/-- Source: `max_arity` of `merge_recursively` (sort_stream.h:1411), with the guarded
subtraction of the source matching truncated `Nat` subtraction. -/
def Config.maxArity {α : Type} (cfg : Config α) : Nat :=
  (cfg.mergerMemory - cfg.memoryForBuffers) / cfg.rawBlockSize

/-- Modelled from the spec: `optimal_merge_factor` (sort_base.h, an external
collaborator, not among the source files) picks a merge arity
`f ∈ [2, max_arity]` by the balanced external-merge arithmetic; the model
clamps the run count into that interval, which satisfies the same contract
(the source asserts `merge_factor > 1 ∧ merge_factor <= max_arity`). -/
def optimalMergeFactor (nruns maxA : Nat) : Nat :=
  max 2 (min maxA nruns)

/-- Chunking helper for the group loop of `merge_recursively`: `k` groups of
up to `f` consecutive entries.  Called with `k = ceilDiv l.length f`, it
mirrors `runs2merge = min(runs_left, merge_factor)` over the whole list. -/
def chunksOfAux {β : Type} (f : Nat) (l : List β) (k : Nat) : List (List β) :=
  match k with
  | 0 => []
  | k + 1 => l.take f :: chunksOfAux f (l.drop f) k

/-- The groups of consecutive runs merged by one phase of
`merge_recursively` (sort_stream.h:1439-1526). -/
def chunksOf {β : Type} (f : Nat) (l : List β) : List (List β) :=
  chunksOfAux f l (ceilDiv l.length f)

/-- Merging one group of runs in `merge_recursively` (sort_stream.h:1441-1522):
a group of a single run is carried over unchanged (block ids transferred); a
larger group is merged by an inner merger that emits exactly the group's
element count, and the tail of the last block is padded with `max_value`. -/
def mergeGroup {α : Type} (cmp : α → α → Bool) (maxV : α) (B : Nat)
    (g : List (List α × Nat)) : List α × Nat :=
  match g with
  | [gr] => gr
  | _ =>
    let sz := (g.map Prod.snd).sum
    let merged := (kMerge cmp (g.map Prod.fst)).take sz
    (merged ++ List.replicate (ceilDiv sz B * B - sz) maxV, sz)

/-- The `while (nruns > max_arity)` loop of `merge_recursively`
(sort_stream.h:1418-1538) over (payload, size) pairs: each phase merges groups
of `merge_factor` consecutive runs, producing `div_ceil(nruns, merge_factor)`
runs.  The extra guard conjuncts `2 ≤ f` and `2 ≤ prs.length` hold in every
state the source reaches (it asserts `merge_factor ≥ 2` and enters the loop
only with `nruns > max_arity ≥ merge_factor`); they make termination
manifest. -/
def mergeRecLoop {α : Type} (cmp : α → α → Bool) (maxV : α) (B maxA f : Nat)
    (prs : List (List α × Nat)) : List (List α × Nat) :=
  if h : 2 ≤ f ∧ maxA < prs.length ∧ 2 ≤ prs.length then
    mergeRecLoop cmp maxV B maxA f
      ((chunksOf f prs).map (mergeGroup cmp maxV B))
  else prs
termination_by prs.length
decreasing_by
  simp only [List.length_map, chunksOf]
  have hlen : ∀ (k : Nat) (l : List (List α × Nat)),
      (chunksOfAux f l k).length = k := by
    intro k
    induction k with
    | zero => intro l; rfl
    | succ n ih => intro l; simp [chunksOfAux, ih]
  rw [hlen]
  obtain ⟨hf, hA, hl⟩ := h
  have hff : 0 < f := by omega
  rw [ceilDiv, Nat.div_lt_iff_lt_mul hff]
  have h3 : prs.length * 2 ≤ prs.length * f := Nat.mul_le_mul (le_refl _) hf
  have h4 : 2 * f ≤ prs.length * f := Nat.mul_le_mul hl (le_refl _)
  generalize prs.length * f = t at h3 h4
  omega

/-- Source: `merge_recursively` (sort_stream.h:1395-1539) at the descriptor level:
repeatedly merge groups of `optimal_merge_factor(nruns, max_arity)` runs until
at most `max_arity` runs remain.  The total element count is unchanged and the
descriptor is updated in place (its old run list is cleared before being
replaced, transferring block ownership). -/
def mergeRecursively {α : Type} (cfg : Config α) (d : SortedRunsD α) :
    SortedRunsD α :=
  let f := optimalMergeFactor d.runs.length cfg.maxArity
  let p := mergeRecLoop cfg.cmp cfg.maxV cfg.B cfg.maxArity f
    (d.runs.zip d.runsSizes)
  { runs := p.map Prod.fst
    runsSizes := p.map Prod.snd
    elements := d.elements
    smallRun := d.smallRun }

/-- The failure of `basic_runs_merger::initialize`: the `INSUFFICIENT MEMORY`
`bad_parameter` exception (sort_stream.h:1233-1235). -/
inductive MergerError where
  | insufficientMemory : MergerError
deriving DecidableEq

/-- Source: `basic_runs_merger::initialize` (sort_stream.h:1179-1315) followed by the
complete drain of the output stream. Branches, in source order: an empty
input produces nothing; a non-empty small run is exposed directly from memory;
otherwise, if a single merge pass is infeasible
(`input_buffers < nruns + min_prefetch_buffers`), either abort with
insufficient memory (`recursive_merge_buffers < 2*min_prefetch_buffers+1+2`)
or reduce the run count by `merge_recursively`; finally the runs are merged.
The drained output is the cumulative effect of `fill_buffer_block`
(sort_stream.h:1065-1142) over the whole stream; it is modelled from the
spec contract of the k-way merger collaborator as the first `elements`
entries of the k-way merge of the runs, the remainder of the merge being the
`max_value` padding that `m_elements_remaining` stops from being emitted.
Returns the (possibly recursively merged) descriptor and the drained
output. -/
def mergerInitialize {α : Type} (cfg : Config α) (d : SortedRunsD α) :
    Except MergerError (SortedRunsD α × List α) :=
  if d.elements = 0 then Except.ok (d, [])
  else if d.smallRun.length ≠ 0 then Except.ok (d, d.smallRun)
  else if cfg.inputBuffers < d.runs.length + cfg.minPrefetchBuffers then
    if cfg.recursiveMergeBuffers < 2 * cfg.minPrefetchBuffers + 1 + 2 then
      Except.error MergerError.insufficientMemory
    else
      let d2 := mergeRecursively cfg d
      Except.ok (d2, (kMerge cfg.cmp d2.runs).take d2.elements)
  else Except.ok (d, (kMerge cfg.cmp d.runs).take d.elements)

/-- Whether an `Except` computation succeeded. -/
def isOkB {ε β : Type} (e : Except ε β) : Bool :=
  match e with
  | Except.ok _ => true
  | Except.error _ => false

/-- The value of a successful `Except` computation, with a default. -/
def exceptGet {ε β : Type} (e : Except ε β) (dflt : β) : β :=
  match e with
  | Except.ok v => v
  | Except.error _ => dflt

/-- The descriptor produced by a successful `initialize` (projection used to
state run-count facts without an existential). -/
def mergerInitResultD {α : Type} (cfg : Config α) (d : SortedRunsD α) :
    SortedRunsD α :=
  (exceptGet (mergerInitialize cfg d) (d, [])).1

/-- The two mutually exclusive states of the `sorter` container
(sorter.h:91). -/
inductive SorterSt where
  | input : SorterSt
  | output : SorterSt
deriving DecidableEq

/-- The `sorter` facade (sorter.h): its state flag, the owned push-mode runs
creator, and the remaining output of the runs merger (`m_runs_merger`); the
merger's output is the sequence read out through `operator*()` and
`operator++()` until `empty()`, and it is emptied by
`runs_merger::deallocate`. -/
structure Sorter (α : Type) where
  st : SorterSt
  creator : PushCreator α
  mergerOut : List α
deriving DecidableEq

/-- A freshly constructed sorter: INPUT state, fresh creator, inactive
merger. -/
def Sorter.init (α : Type) : Sorter α :=
  { st := SorterSt.input, creator := PushCreator.init α, mergerOut := [] }

/-- Source: `sorter::push` (sorter.h:139-143): forward to the creator (the source
asserts the INPUT state). -/
def Sorter.push {α : Type} (cfg : Config α) (s : Sorter α) (v : α) : Sorter α :=
  { s with creator := s.creator.push cfg v }

/-- Pushing a whole list of values into the sorter. -/
def Sorter.pushAll {α : Type} (cfg : Config α) (s : Sorter α) (l : List α) :
    Sorter α :=
  l.foldl (Sorter.push cfg) s

/-- Source: `sorter::sort` (sorter.h:179-189): deallocate the merger when in OUTPUT
state, finalize the creator (`deallocate()` computes the result), initialize
the merger on the shared descriptor (which `merge_recursively` may update in
place), and enter the OUTPUT state. -/
def Sorter.sortOp {α : Type} (cfg : Config α) (s : Sorter α) :
    Except MergerError (Sorter α) :=
  let s0 := if s.st = SorterSt.output then { s with mergerOut := ([] : List α) }
            else s
  let c := s0.creator.resultFinish cfg
  match mergerInitialize cfg c.result with
  | Except.error e => Except.error e
  | Except.ok pr =>
      Except.ok
        { st := SorterSt.output
          creator := { c with result := pr.1 }
          mergerOut := pr.2 }

/-- Source: `sorter::rewind` (sorter.h:212-221): from the OUTPUT state (asserted in
the source), deallocate the merger, return to the INPUT state and run
`sort()` again over the already-produced runs. -/
def Sorter.rewind {α : Type} (cfg : Config α) (s : Sorter α) :
    Except MergerError (Sorter α) :=
  Sorter.sortOp cfg { s with st := SorterSt.input, mergerOut := ([] : List α) }

/-- Source: `sorter::finish` (sorter.h:151-159): deallocate the merger when in OUTPUT
state, then deallocate the creator (which finalizes and keeps the result
descriptor). -/
def Sorter.finish {α : Type} (cfg : Config α) (s : Sorter α) : Sorter α :=
  if s.st = SorterSt.output then
    { s with mergerOut := ([] : List α),
             creator := s.creator.resultFinish cfg }
  else
    { s with creator := s.creator.resultFinish cfg }

/-- Source: `sorter::finish_clear` (sorter.h:161-171): only when in OUTPUT state,
deallocate the merger and clear the result descriptor
(`m_runs_creator.result()->clear()`); in every state then deallocate the
creator (which finalizes the result if it was not yet computed). -/
def Sorter.finishClear {α : Type} (cfg : Config α) (s : Sorter α) : Sorter α :=
  if s.st = SorterSt.output then
    let c1 := s.creator.resultFinish cfg
    let c2 := { c1 with result := c1.result.clear }
    { s with mergerOut := ([] : List α), creator := c2.resultFinish cfg }
  else
    { s with creator := s.creator.resultFinish cfg }

/-- Source: `sort_helper::trigger_entry` (sort_helper.h:41-55): a block id paired with
the block's trigger value (its first element).  The block id is modelled as
the (run index, block index) pair that identifies the block. -/
structure TriggerEntry (α : Type) where
  bid : Nat × Nat
  value : α
deriving DecidableEq

/-- Source: `sort_helper::trigger_entry_cmp` (sort_helper.h:57-68): compare trigger
entries by their values only. -/
def triggerEntryCmp {α : Type} (cmp : α → α → Bool)
    (a b : TriggerEntry α) : Bool :=
  cmp a.value b.value

/-- The flattening and stable sort of the runs' trigger arrays into the
consume sequence in `basic_runs_merger::initialize` (sort_stream.h:1254-1266):
`std::stable_sort` by `trigger_entry_cmp` is modelled by the stable
`List.mergeSort` under the induced non-strict order. -/
def consumeSeq {α : Type} (cmp : α → α → Bool)
    (runs : List (List (TriggerEntry α))) : List (TriggerEntry α) :=
  runs.flatten.mergeSort (fun a b => !(triggerEntryCmp cmp b a))

/-- The prefetch schedule of the default (non-optimal) branch
(sort_stream.h:1280-1281): the identity permutation `m_prefetch_seq[i] = i`,
so the prefetcher issues reads in consume-sequence order. -/
def prefetchSeq (n : Nat) : List Nat :=
  List.range n

/-- The observable output-buffer state of `basic_runs_merger`: the remaining
element count `m_elements_remaining` and the positions of `m_current_ptr` and
`m_current_end` within the staged output. -/
structure MergerBuf where
  elementsRemaining : Nat
  ptrIdx : Nat
  endIdx : Nat
deriving DecidableEq

/-- Source: `basic_runs_merger::next_output_would_block` (sort_stream.h:1350-1352):
`m_current_ptr + 1 == m_current_end`. -/
def nextOutputWouldBlock (s : MergerBuf) : Bool :=
  s.ptrIdx + 1 == s.endIdx

/-- Whether `basic_runs_merger::operator++` (sort_stream.h:1357-1383) triggers
a refill of the output buffer: after `--m_elements_remaining` and
`++m_current_ptr`, the refill runs iff the pointer reached the end and the
stream is not yet empty. -/
def advanceTriggersRefill (s : MergerBuf) : Bool :=
  (s.ptrIdx + 1 == s.endIdx) && !(s.elementsRemaining - 1 == 0)

/-- The output-buffer state right after the small-run branch of
`basic_runs_merger::initialize` (sort_stream.h:1187-1197): the current
pointer is the start of the small-run vector of `n` elements and the end
pointer is one past its last element. -/
def smallRunMergerBuf (n : Nat) : MergerBuf :=
  { elementsRemaining := n, ptrIdx := 0, endIdx := n }

/-- The observable interface of `run_cursor2` used by the cursor comparator:
whether the cursor is exhausted, and its current value. -/
structure RunCursor (α : Type) where
  isEmpty : Bool
  cur : α
deriving DecidableEq

/-- Source: `sort_helper::run_cursor2_cmp::operator()` (sort_helper.h:84-94): an empty
right cursor compares greater-or-equal to everything (returns `true`), an
empty left cursor against a non-empty right cursor returns `false` (sentinel
emulation), and two non-empty cursors compare by their current values. -/
def runCursor2Cmp {α : Type} (cmp : α → α → Bool)
    (a b : RunCursor α) : Bool :=
  if b.isEmpty then true
  else if a.isEmpty then false
  else cmp a.cur b.cur

/-- Strict less-than on `Nat`, the comparator of the concrete instances
(scenario element type of the spec, `cmp = <`). -/
def natLtCmp : Nat → Nat → Bool := fun a b => decide (a < b)

/-- Concrete configuration for the end-to-end instances: `Nat` elements with
sentinel `100`, two elements per block, one block per memory half, ample
merger memory on one disk. -/
def cfgW : Config Nat :=
  { cmp := natLtCmp, maxV := 100, B := 2, m2 := 1, mergerMemory := 100,
    rawBlockSize := 1, disks := 1 }

/-- Concrete configuration with four elements per block for the small-input
instances (scenario B of the spec). -/
def cfgSmallW : Config Nat :=
  { cmp := natLtCmp, maxV := 100, B := 4, m2 := 1, mergerMemory := 100,
    rawBlockSize := 1, disks := 1 }

/-- Concrete merger configuration sitting exactly at the memory boundary:
`memory_to_use / raw_size = 7 = 2 * min_prefetch_buffers + 3`, so the source's
recursive-merge memory check passes while `max_arity = 2`. -/
def cfgBoundary : Config Nat :=
  { cmp := natLtCmp, maxV := 100, B := 1, m2 := 1, mergerMemory := 7,
    rawBlockSize := 1, disks := 1 }

/-- A descriptor with ten single-element external runs, forcing recursive
merging under `cfgBoundary`. -/
def descTen : SortedRunsD Nat :=
  { runs := List.replicate 10 [5], runsSizes := List.replicate 10 1,
    elements := 10, smallRun := [] }

/-- The sorter of the concrete end-to-end instance after pushing `[3, 1, 2]`. -/
def sorterW : Sorter Nat :=
  Sorter.pushAll cfgW (Sorter.init Nat) [3, 1, 2]

/-- The concrete sorter after `sort()`: in the OUTPUT state with the merged
stream staged. -/
def sorterOutW : Sorter Nat :=
  exceptGet (Sorter.sortOp cfgW sorterW) sorterW

/-- Concrete merger configuration below the memory boundary:
`memory_to_use / raw_size = 6 < 2 * min_prefetch_buffers + 3`, so the
source's recursive-merge memory check aborts (`max_arity = 1`). -/
def cfgAbortW : Config Nat :=
  { cmp := natLtCmp, maxV := 100, B := 1, m2 := 1, mergerMemory := 6,
    rawBlockSize := 1, disks := 1 }

/-- Two concrete runs of trigger entries (block ids are (run, block) pairs)
with equal trigger values across and inside runs, exercising stability of the
consume-sequence sort. -/
def demoRuns : List (List (TriggerEntry Nat)) :=
  [[⟨(0, 0), 1⟩, ⟨(0, 1), 5⟩], [⟨(1, 0), 2⟩, ⟨(1, 1), 5⟩]]

/-! ### Helper lemmas on the induced non-strict order -/

theorem cmpLe_eq_true {α : Type} (cmp : α → α → Bool) (a b : α) :
    cmpLe cmp a b = true ↔ cmp b a = false := by
  simp [cmpLe]

theorem cmpLe_trans {α : Type} (cmp : α → α → Bool)
    (hneg : ∀ a b c, cmp b a = false → cmp c b = false → cmp c a = false) :
    ∀ a b c : α, cmpLe cmp a b = true → cmpLe cmp b c = true →
      cmpLe cmp a c = true := by
  intro a b c hab hbc
  rw [cmpLe_eq_true] at hab hbc ⊢
  exact hneg a b c hab hbc

theorem cmpLe_total {α : Type} (cmp : α → α → Bool)
    (hasym : ∀ a b, cmp a b = true → cmp b a = false) :
    ∀ a b : α, (cmpLe cmp a b || cmpLe cmp b a) = true := by
  intro a b
  simp only [cmpLe, Bool.or_eq_true, Bool.not_eq_true']
  by_cases h : cmp b a = true
  · exact Or.inr (hasym b a h)
  · exact Or.inl (by simpa using h)

theorem pairwise_of_pairwise_cmpLe {α : Type} (cmp : α → α → Bool)
    {l : List α} (h : l.Pairwise (fun a b => cmpLe cmp a b = true)) :
    l.Pairwise (fun a b => cmp b a = false) := by
  refine h.imp ?_
  intro a b hab
  rwa [cmpLe_eq_true] at hab

theorem pairwise_cmpLe_of_pairwise {α : Type} (cmp : α → α → Bool)
    {l : List α} (h : l.Pairwise (fun a b => cmp b a = false)) :
    l.Pairwise (fun a b => cmpLe cmp a b = true) := by
  refine h.imp ?_
  intro a b hab
  rwa [cmpLe_eq_true]

/-! ### Helper lemmas on the modelled internal sort and k-way merge -/

theorem internalSort_perm {α : Type} (cmp : α → α → Bool) (l : List α) :
    (internalSort cmp l).Perm l :=
  List.mergeSort_perm l _

theorem internalSort_length {α : Type} (cmp : α → α → Bool) (l : List α) :
    (internalSort cmp l).length = l.length :=
  (internalSort_perm cmp l).length_eq

theorem internalSort_sorted {α : Type} (cmp : α → α → Bool)
    (hneg : ∀ a b c, cmp b a = false → cmp c b = false → cmp c a = false)
    (hasym : ∀ a b, cmp a b = true → cmp b a = false) (l : List α) :
    (internalSort cmp l).Pairwise (fun a b => cmp b a = false) :=
  pairwise_of_pairwise_cmpLe cmp
    (List.sorted_mergeSort (cmpLe_trans cmp hneg) (cmpLe_total cmp hasym) l)

theorem kMerge_perm {α : Type} (cmp : α → α → Bool) :
    ∀ runs : List (List α), (kMerge cmp runs).Perm runs.flatten := by
  intro runs
  induction runs with
  | nil => simp [kMerge]
  | cons r rs ih =>
      have h1 : kMerge cmp (r :: rs) =
          List.merge r (kMerge cmp rs) (cmpLe cmp) := rfl
      rw [h1, List.flatten_cons]
      exact (List.merge_perm_append (cmpLe cmp)).trans (ih.append_left r)

theorem kMerge_sorted {α : Type} (cmp : α → α → Bool)
    (hneg : ∀ a b c, cmp b a = false → cmp c b = false → cmp c a = false)
    (hasym : ∀ a b, cmp a b = true → cmp b a = false) :
    ∀ runs : List (List α),
      (∀ r ∈ runs, r.Pairwise (fun a b => cmp b a = false)) →
      (kMerge cmp runs).Pairwise (fun a b => cmp b a = false) := by
  intro runs
  induction runs with
  | nil => intro _; simp [kMerge]
  | cons r rs ih =>
      intro h
      have h1 : kMerge cmp (r :: rs) =
          List.merge r (kMerge cmp rs) (cmpLe cmp) := rfl
      rw [h1]
      refine pairwise_of_pairwise_cmpLe cmp ?_
      refine List.sorted_merge (cmpLe_trans cmp hneg) (cmpLe_total cmp hasym)
        _ _ ?_ ?_
      · exact pairwise_cmpLe_of_pairwise cmp (h r (List.mem_cons_self r rs))
      · exact pairwise_cmpLe_of_pairwise cmp
          (ih (fun x hx => h x (List.mem_cons_of_mem _ hx)))

/-! ### Arithmetic helpers -/

theorem le_ceilDiv_mul (a b : Nat) (hb : 0 < b) : a ≤ ceilDiv a b * b := by
  have h1 := Nat.div_add_mod (a + b - 1) b
  have h2 : (a + b - 1) % b < b := Nat.mod_lt _ hb
  rw [ceilDiv, Nat.mul_comm]
  generalize hq : (a + b - 1) / b = q at h1
  generalize hr : (a + b - 1) % b = r at h1 h2
  generalize ht : b * q = t at h1 ⊢
  omega

theorem ceilDiv_mul_self (m b : Nat) (hb : 0 < b) : ceilDiv (m * b) b = m := by
  rw [ceilDiv]
  have h1 : m * b + b - 1 = b - 1 + b * m := by
    rw [Nat.mul_comm]
    generalize b * m = t
    omega
  rw [h1, Nat.add_mul_div_left _ _ hb, Nat.div_eq_of_lt (by omega)]
  omega

/-! ### Sorted separation of real elements from sentinel padding -/

theorem sorted_takeWhile_eq_filter {α : Type} (cmp : α → α → Bool) (maxV : α) :
    ∀ m : List α, m.Pairwise (fun a b => cmp b a = false) →
      (∀ x ∈ m, cmp x maxV = true ∨ x = maxV) →
      m.takeWhile (fun x => cmp x maxV) = m.filter (fun x => cmp x maxV) := by
  intro m
  induction m with
  | nil => intro _ _; rfl
  | cons a t ih =>
      intro hs hmem
      rcases List.pairwise_cons.mp hs with ⟨ha, ht⟩
      by_cases hpa : cmp a maxV = true
      · have ih2 := ih ht (fun x hx => hmem x (List.mem_cons_of_mem _ hx))
        simp [List.takeWhile_cons, List.filter_cons, hpa, ih2]
      · have hpa2 : cmp a maxV = false := by
          simpa using hpa
        have ha_eq : a = maxV := by
          rcases hmem a (List.mem_cons_self _ _) with h | h
          · exact absurd h hpa
          · exact h
        have hnil : t.filter (fun x => cmp x maxV) = [] := by
          rw [List.filter_eq_nil_iff]
          intro y hy
          have hya : cmp y a = false := ha y hy
          rw [ha_eq] at hya
          simp [hya]
        simp [List.takeWhile_cons, List.filter_cons, hpa2, hnil]

theorem sorted_take_real {α : Type} (cmp : α → α → Bool) (maxV : α)
    (hmaxmax : cmp maxV maxV = false)
    (m R P : List α)
    (hs : m.Pairwise (fun a b => cmp b a = false))
    (hperm : m.Perm (R ++ P))
    (hR : ∀ x ∈ R, cmp x maxV = true)
    (hP : ∀ y ∈ P, y = maxV) :
    (m.take R.length).Perm R := by
  have hmem : ∀ x ∈ m, cmp x maxV = true ∨ x = maxV := by
    intro x hx
    have hx2 : x ∈ R ++ P := hperm.subset hx
    rcases List.mem_append.mp hx2 with h | h
    · exact Or.inl (hR x h)
    · exact Or.inr (hP x h)
  have htf : m.takeWhile (fun x => cmp x maxV) =
      m.filter (fun x => cmp x maxV) :=
    sorted_takeWhile_eq_filter cmp maxV m hs hmem
  have hfilter : (m.filter (fun x => cmp x maxV)).Perm R := by
    have h1 : (R ++ P).filter (fun x => cmp x maxV) = R := by
      rw [List.filter_append]
      have h2 : R.filter (fun x => cmp x maxV) = R :=
        List.filter_eq_self.mpr (fun a ha => by simpa using hR a ha)
      have h3 : P.filter (fun x => cmp x maxV) = [] :=
        List.filter_eq_nil_iff.mpr (fun a ha => by
          have hy := hP a ha
          subst hy
          simp [hmaxmax])
      rw [h2, h3, List.append_nil]
    exact h1 ▸ hperm.filter (fun x => cmp x maxV)
  have hlen : (m.takeWhile (fun x => cmp x maxV)).length = R.length := by
    rw [htf]
    exact hfilter.length_eq
  have hsplit : m.take R.length = m.takeWhile (fun x => cmp x maxV) := by
    conv_lhs =>
      rw [← List.takeWhile_append_dropWhile (fun x => cmp x maxV) m]
    rw [List.take_left' hlen]
  rw [hsplit, htf]
  exact hfilter

/-- Splitting a flatten of runs given as (real part, padding) into the
concatenation of all real parts and all paddings, up to permutation. -/
theorem flatten_split_perm {α : Type} :
    ∀ l : List (List α × List α),
      ((l.map fun pr => pr.1 ++ pr.2).flatten).Perm
        ((l.map Prod.fst).flatten ++ (l.map Prod.snd).flatten) := by
  intro l
  induction l with
  | nil => simp
  | cons pr rest ih =>
      simp only [List.map_cons, List.flatten_cons]
      have h1 : ((pr.1 ++ pr.2) ++
            ((rest.map fun q => q.1 ++ q.2).flatten)).Perm
          ((pr.1 ++ pr.2) ++
            ((rest.map Prod.fst).flatten ++ (rest.map Prod.snd).flatten)) :=
        ih.append_left _
      refine h1.trans ?_
      have h2 : (pr.2 ++ ((rest.map Prod.fst).flatten ++
            (rest.map Prod.snd).flatten)).Perm
          ((rest.map Prod.fst).flatten ++
            (pr.2 ++ (rest.map Prod.snd).flatten)) := by
        rw [← List.append_assoc, ← List.append_assoc]
        exact List.Perm.append_right _ List.perm_append_comm
      have h3 := h2.append_left pr.1
      simpa [List.append_assoc] using h3

/-! ### Run payload construction -/

theorem flatten_perm_of_forall_perm {α : Type} :
    ∀ L1 L2 : List (List α), List.Forall₂ List.Perm L1 L2 →
      L1.flatten.Perm L2.flatten := by
  intro L1 L2 h
  induction h with
  | nil => simp
  | cons hpr _ ih =>
      simp only [List.flatten_cons]
      exact hpr.append ih

theorem runWf_of_sorted {α : Type} (cmp : α → α → Bool) (maxV : α)
    (B : Nat) (hB : 0 < B) (hmaxmax : cmp maxV maxV = false)
    (hasym : ∀ a b, cmp a b = true → cmp b a = false)
    (s : List α) (sz : Nat) (hlen : s.length = sz)
    (hsorted : s.Pairwise (fun a b => cmp b a = false))
    (hreal : ∀ x ∈ s, cmp x maxV = true) :
    RunWf cmp maxV B (s ++ List.replicate (ceilDiv sz B * B - sz) maxV, sz) := by
  have hle : sz ≤ ceilDiv sz B * B := le_ceilDiv_mul sz B hB
  have hlen2 : (s ++ List.replicate (ceilDiv sz B * B - sz) maxV).length =
      ceilDiv sz B * B := by
    simp [hlen]
    omega
  refine ⟨hlen2, ?_, ?_, ?_, ?_⟩
  · rw [hlen2]
    exact hle
  · rw [List.pairwise_append]
    refine ⟨hsorted, ?_, ?_⟩
    · rw [List.pairwise_replicate]
      exact Or.inr hmaxmax
    · intro x hx y hy
      have hy2 : y = maxV := List.eq_of_mem_replicate hy
      rw [hy2]
      exact hasym x maxV (hreal x hx)
  · intro x hx
    rw [List.take_left' hlen] at hx
    exact hreal x hx
  · rw [List.drop_left' hlen, hlen2]

/-! ### The push-mode creator maintains the chunk invariant -/

theorem chunksInv_init {α : Type} (cfg : Config α) :
    ChunksInv cfg [] (PushCreator.init α) := by
  refine ⟨[], ?_⟩
  simp [PushCreator.init, SortedRunsD.empty]

theorem chunksInv_push {α : Type} (cfg : Config α)
    (hB : 0 < cfg.B) (hm2 : 0 < cfg.m2)
    (l : List α) (c : PushCreator α) (v : α) (h : ChunksInv cfg l c) :
    ChunksInv cfg (l ++ [v]) (c.push cfg v) := by
  have hE : 0 < cfg.elInRun := Nat.mul_pos hm2 hB
  obtain ⟨chunks, hl, hcur, hch, hruns, hsizes, helems, hsmall, hflag, hbids⟩ := h
  rw [PushCreator.push]
  by_cases hlt : c.curEl.length < cfg.elInRun
  · rw [if_pos hlt]
    refine ⟨chunks, ?_, ?_, hch, hruns, hsizes, helems, hsmall, hflag, hbids⟩
    · rw [hl, List.append_assoc]
    · simpa using hlt
  · rw [if_neg hlt]
    have hcurE : c.curEl.length = cfg.elInRun := by omega
    refine ⟨chunks ++ [c.curEl], ?_, ?_, ?_, ?_, ?_, ?_, ?_, ?_, ?_⟩
    · rw [hl, List.flatten_append]
      simp
    · simpa using hE
    · intro ch hch2
      rcases List.mem_append.mp hch2 with h2 | h2
      · exact hch ch h2
      · rw [List.mem_singleton.mp h2]
        exact hcurE
    · simp [SortedRunsD.addRun, hruns]
    · simp [SortedRunsD.addRun, hsizes, hcurE]
    · simp [SortedRunsD.addRun, helems, hcurE]
    · simp [SortedRunsD.addRun, hsmall]
    · simpa using hflag
    · simp only [List.length_append, List.length_cons, List.length_nil]
      rw [hbids, Config.elInRun, ceilDiv_mul_self cfg.m2 cfg.B hB]
      ring

theorem chunksInv_pushAll {α : Type} (cfg : Config α)
    (hB : 0 < cfg.B) (hm2 : 0 < cfg.m2) :
    ∀ (l : List α) (l0 : List α) (c : PushCreator α), ChunksInv cfg l0 c →
      ChunksInv cfg (l0 ++ l) (c.pushAll cfg l) := by
  intro l
  induction l with
  | nil =>
      intro l0 c h
      simpa [PushCreator.pushAll] using h
  | cons v t ih =>
      intro l0 c h
      have h1 := chunksInv_push cfg hB hm2 l0 c v h
      have h2 := ih (l0 ++ [v]) (c.push cfg v) h1
      simpa [PushCreator.pushAll, List.append_assoc] using h2

/-! ### The descriptor produced by the push-mode creator -/

theorem full_runs_zip_runWf {α : Type} (cfg : Config α) (hB : 0 < cfg.B)
    (hneg : ∀ a b c, cfg.cmp b a = false → cfg.cmp c b = false →
      cfg.cmp c a = false)
    (hasym : ∀ a b, cfg.cmp a b = true → cfg.cmp b a = false)
    (hmaxmax : cfg.cmp cfg.maxV cfg.maxV = false)
    (l : List α) (hmax : ∀ x ∈ l, cfg.cmp x cfg.maxV = true)
    (chunks : List (List α))
    (hch : ∀ ch ∈ chunks, ch.length = cfg.elInRun)
    (hchmem : ∀ ch ∈ chunks, ∀ x ∈ ch, x ∈ l) :
    (∀ pr ∈ (chunks.map (internalSort cfg.cmp)).zip (chunks.map List.length),
        RunWf cfg.cmp cfg.maxV cfg.B pr) ∧
    ((((chunks.map (internalSort cfg.cmp)).zip
        (chunks.map List.length)).map realPart).flatten).Perm
      chunks.flatten := by
  constructor
  · intro pr hpr
    rw [List.zip_map'] at hpr
    obtain ⟨ch, hch2, hpr2⟩ := List.mem_map.mp hpr
    have hchE := hch ch hch2
    have hmem2 : ∀ x ∈ internalSort cfg.cmp ch, cfg.cmp x cfg.maxV = true := by
      intro x hx
      exact hmax x (hchmem ch hch2 x ((internalSort_perm cfg.cmp ch).subset hx))
    have hwf := runWf_of_sorted cfg.cmp cfg.maxV cfg.B hB hmaxmax hasym
      (internalSort cfg.cmp ch) ch.length (internalSort_length cfg.cmp ch)
      (internalSort_sorted cfg.cmp hneg hasym ch) hmem2
    have h0 : ceilDiv ch.length cfg.B * cfg.B - ch.length = 0 := by
      rw [hchE, Config.elInRun, ceilDiv_mul_self cfg.m2 cfg.B hB]
      omega
    rw [h0] at hwf
    simp only [List.replicate_zero, List.append_nil] at hwf
    rw [← hpr2]
    exact hwf
  · rw [List.zip_map', List.map_map]
    have hmapeq : (chunks.map (realPart ∘ fun ch =>
        (internalSort cfg.cmp ch, ch.length))) =
        chunks.map (internalSort cfg.cmp) := by
      refine List.map_congr_left ?_
      intro ch _
      show (internalSort cfg.cmp ch).take ch.length = internalSort cfg.cmp ch
      rw [← internalSort_length cfg.cmp ch, List.take_length]
    rw [hmapeq]
    refine flatten_perm_of_forall_perm _ _ ?_
    rw [List.forall₂_map_left_iff]
    rw [List.forall₂_same]
    intro ch _
    exact internalSort_perm cfg.cmp ch

theorem computeResult_spec {α : Type} (cfg : Config α)
    (hB : 0 < cfg.B) (hm2 : 0 < cfg.m2)
    (hneg : ∀ a b c, cfg.cmp b a = false → cfg.cmp c b = false →
      cfg.cmp c a = false)
    (hasym : ∀ a b, cfg.cmp a b = true → cfg.cmp b a = false)
    (hmaxmax : cfg.cmp cfg.maxV cfg.maxV = false)
    (l : List α) (hmax : ∀ x ∈ l, cfg.cmp x cfg.maxV = true)
    (c : PushCreator α) (h : ChunksInv cfg l c) :
    (DescWf cfg.cmp cfg.maxV cfg.B (c.computeResult cfg).result ∧
      (descReal (c.computeResult cfg).result).Perm l) ∨
    ((c.computeResult cfg).result.runs = [] ∧
      (c.computeResult cfg).result.smallRun = internalSort cfg.cmp l ∧
      (c.computeResult cfg).result.elements = l.length ∧ l.length ≠ 0) := by
  have hE : 0 < cfg.elInRun := Nat.mul_pos hm2 hB
  obtain ⟨chunks, hl, hcur, hch, hruns, hsizes, helems, hsmall, hflag, hbids⟩ := h
  have hchmem : ∀ ch ∈ chunks, ∀ x ∈ ch, x ∈ l := by
    intro ch hch2 x hx
    rw [hl]
    exact List.mem_append_left _ (List.mem_flatten_of_mem hch2 hx)
  obtain ⟨hwfChunks, hpermChunks⟩ := full_runs_zip_runWf cfg hB hneg hasym
    hmaxmax l hmax chunks hch hchmem
  rw [PushCreator.computeResult]
  by_cases h0 : c.curEl.length = 0
  · rw [if_pos h0]
    left
    have hcurnil : c.curEl = [] := List.length_eq_zero.mp h0
    have hl2 : l = chunks.flatten := by
      rw [hl, hcurnil, List.append_nil]
    constructor
    · refine ⟨by simp [hsizes, hruns], by rw [helems, hsizes], hsmall, ?_⟩
      intro pr hpr
      rw [hruns, hsizes] at hpr
      exact hwfChunks pr hpr
    · rw [descReal, hruns, hsizes, hl2]
      exact hpermChunks
  · rw [if_neg h0]
    by_cases hsmallCase : c.curEl.length ≤ cfg.B ∧ c.result.elements = 0
    · rw [if_pos hsmallCase]
      right
      have hchunksnil : chunks = [] := by
        rcases chunks with _ | ⟨ch, rest⟩
        · rfl
        · exfalso
          have h1 : ch.length = cfg.elInRun := hch ch (List.mem_cons_self _ _)
          have h2 := hsmallCase.2
          rw [helems] at h2
          simp only [List.map_cons, List.sum_cons] at h2
          omega
      have hl2 : l = c.curEl := by
        rw [hl, hchunksnil]
        simp
      refine ⟨?_, ?_, ?_, ?_⟩
      · simpa [hruns, hchunksnil] using rfl
      · simp only []
        rw [hl2]
      · simp only []
        rw [hl2]
      · rw [hl2]
        exact h0
    · rw [if_neg hsmallCase]
      left
      have hreal2 : ∀ x ∈ internalSort cfg.cmp c.curEl,
          cfg.cmp x cfg.maxV = true := by
        intro x hx
        refine hmax x ?_
        rw [hl]
        exact List.mem_append_right _
          ((internalSort_perm cfg.cmp c.curEl).subset hx)
      have hwfLast := runWf_of_sorted cfg.cmp cfg.maxV cfg.B hB hmaxmax hasym
        (internalSort cfg.cmp c.curEl) c.curEl.length
        (internalSort_length cfg.cmp c.curEl)
        (internalSort_sorted cfg.cmp hneg hasym c.curEl) hreal2
      have hzipapp :
          ((chunks.map (internalSort cfg.cmp) ++
              [internalSort cfg.cmp c.curEl ++
                List.replicate (ceilDiv c.curEl.length cfg.B * cfg.B -
                  c.curEl.length) cfg.maxV]).zip
            (chunks.map List.length ++ [c.curEl.length])) =
          ((chunks.map (internalSort cfg.cmp)).zip
            (chunks.map List.length)) ++
          [(internalSort cfg.cmp c.curEl ++
              List.replicate (ceilDiv c.curEl.length cfg.B * cfg.B -
                c.curEl.length) cfg.maxV, c.curEl.length)] := by
        rw [List.zip_append (by simp)]
        rfl
      constructor
      · refine ⟨?_, ?_, ?_, ?_⟩
        · simp [SortedRunsD.addRun, hruns, hsizes]
        · simp [SortedRunsD.addRun, helems, hsizes]
        · simp [SortedRunsD.addRun, hsmall]
        · intro pr hpr
          simp only [SortedRunsD.addRun, hruns, hsizes] at hpr
          rw [hzipapp] at hpr
          rcases List.mem_append.mp hpr with h2 | h2
          · exact hwfChunks pr h2
          · rw [List.mem_singleton.mp h2]
            exact hwfLast
      · rw [descReal]
        simp only [SortedRunsD.addRun, hruns, hsizes]
        rw [hzipapp, List.map_append, List.flatten_append]
        have htake : realPart (internalSort cfg.cmp c.curEl ++
            List.replicate (ceilDiv c.curEl.length cfg.B * cfg.B -
              c.curEl.length) cfg.maxV, c.curEl.length) =
            internalSort cfg.cmp c.curEl := by
          rw [realPart]
          exact List.take_left' (internalSort_length cfg.cmp c.curEl)
        simp only [List.map_cons, List.map_nil, List.flatten_cons,
          List.flatten_nil, htake, List.append_nil]
        rw [hl]
        exact hpermChunks.append (internalSort_perm cfg.cmp c.curEl)

/-! ### Recursive merging: chunking lemmas -/

theorem chunksOfAux_length {β : Type} (f : Nat) :
    ∀ (k : Nat) (l : List β), (chunksOfAux f l k).length = k := by
  intro k
  induction k with
  | zero => intro l; rfl
  | succ n ih => intro l; simp [chunksOfAux, ih]

theorem chunksOfAux_flatten {β : Type} (f : Nat) :
    ∀ (k : Nat) (l : List β), l.length ≤ k * f →
      (chunksOfAux f l k).flatten = l := by
  intro k
  induction k with
  | zero =>
      intro l hl
      simp only [Nat.zero_mul, Nat.le_zero] at hl
      rw [List.length_eq_zero.mp hl]
      rfl
  | succ n ih =>
      intro l hl
      have hstep : (n + 1) * f = n * f + f := by ring
      rw [hstep] at hl
      show l.take f ++ (chunksOfAux f (l.drop f) n).flatten = l
      rw [ih (l.drop f) (by
        simp only [List.length_drop]
        generalize n * f = t at hl ⊢
        omega)]
      exact List.take_append_drop f l

theorem chunksOf_length {β : Type} (f : Nat) (l : List β) :
    (chunksOf f l).length = ceilDiv l.length f :=
  chunksOfAux_length f _ l

theorem chunksOf_flatten {β : Type} (f : Nat) (l : List β) (hf : 0 < f) :
    (chunksOf f l).flatten = l :=
  chunksOfAux_flatten f _ l (le_ceilDiv_mul l.length f hf)

theorem ceilDiv_lt_self (n f : Nat) (hf : 2 ≤ f) (hn : 2 ≤ n) :
    ceilDiv n f < n := by
  rw [ceilDiv, Nat.div_lt_iff_lt_mul (by omega : 0 < f)]
  have h3 : n * 2 ≤ n * f := Nat.mul_le_mul (Nat.le_refl n) hf
  have h4 : 2 * f ≤ n * f := Nat.mul_le_mul hn (Nat.le_refl f)
  generalize n * f = t at h3 h4
  omega

/-! ### Merging well-formed runs and truncating at the real element count -/

theorem kMerge_take_spec {α : Type} (cfg : Config α)
    (hneg : ∀ a b c, cfg.cmp b a = false → cfg.cmp c b = false →
      cfg.cmp c a = false)
    (hasym : ∀ a b, cfg.cmp a b = true → cfg.cmp b a = false)
    (hmaxmax : cfg.cmp cfg.maxV cfg.maxV = false)
    (g : List (List α × Nat))
    (hg : ∀ pr ∈ g, RunWf cfg.cmp cfg.maxV cfg.B pr) :
    ((kMerge cfg.cmp (g.map Prod.fst)).take ((g.map Prod.snd).sum)).Perm
      ((g.map realPart).flatten) ∧
    ((kMerge cfg.cmp (g.map Prod.fst)).take ((g.map Prod.snd).sum)).Pairwise
      (fun a b => cfg.cmp b a = false) ∧
    ((kMerge cfg.cmp (g.map Prod.fst)).take ((g.map Prod.snd).sum)).length =
      (g.map Prod.snd).sum ∧
    (∀ x ∈ (kMerge cfg.cmp (g.map Prod.fst)).take ((g.map Prod.snd).sum),
      cfg.cmp x cfg.maxV = true) := by
  set sz := (g.map Prod.snd).sum with hszdef
  set m := kMerge cfg.cmp (g.map Prod.fst) with hmdef
  have hpayload : ∀ pr ∈ g, pr.1 = realPart pr ++ pr.1.drop pr.2 := by
    intro pr _
    rw [realPart, List.take_append_drop]
  have hsortedm : m.Pairwise (fun a b => cfg.cmp b a = false) := by
    rw [hmdef]
    refine kMerge_sorted cfg.cmp hneg hasym _ ?_
    intro r hr
    obtain ⟨pr, hpr, hpr2⟩ := List.mem_map.mp hr
    rw [← hpr2]
    exact (hg pr hpr).2.2.1
  have hpermm : m.Perm
      ((g.map realPart).flatten ++
        (g.map (fun pr => pr.1.drop pr.2)).flatten) := by
    have h1 : m.Perm ((g.map Prod.fst).flatten) := kMerge_perm cfg.cmp _
    have h2 : (g.map Prod.fst) =
        (g.map (fun pr => (realPart pr, pr.1.drop pr.2))).map
          (fun q => q.1 ++ q.2) := by
      rw [List.map_map]
      refine List.map_congr_left ?_
      intro pr hpr
      exact hpayload pr hpr
    have h3 := flatten_split_perm
      (g.map (fun pr => (realPart pr, pr.1.drop pr.2)))
    have h4 : ((g.map (fun pr => (realPart pr, pr.1.drop pr.2))).map
        Prod.fst) = g.map realPart := by
      simp
    have h5 : ((g.map (fun pr => (realPart pr, pr.1.drop pr.2))).map
        Prod.snd) = g.map (fun pr => pr.1.drop pr.2) := by
      simp
    rw [h4, h5] at h3
    rw [h2] at h1
    exact h1.trans h3
  have hRlen : ((g.map realPart).flatten).length = sz := by
    rw [List.length_flatten, hszdef, List.map_map]
    congr 1
    refine List.map_congr_left ?_
    intro pr hpr
    show (pr.1.take pr.2).length = pr.2
    rw [List.length_take]
    exact Nat.min_eq_left ((hg pr hpr).2.1)
  have hRreal : ∀ x ∈ (g.map realPart).flatten,
      cfg.cmp x cfg.maxV = true := by
    intro x hx
    obtain ⟨r, hr, hxr⟩ := List.mem_flatten.mp hx
    obtain ⟨pr, hpr, hpr2⟩ := List.mem_map.mp hr
    rw [← hpr2] at hxr
    exact (hg pr hpr).2.2.2.1 x hxr
  have hPmax : ∀ y ∈ (g.map (fun pr => pr.1.drop pr.2)).flatten,
      y = cfg.maxV := by
    intro y hy
    obtain ⟨r, hr, hyr⟩ := List.mem_flatten.mp hy
    obtain ⟨pr, hpr, hpr2⟩ := List.mem_map.mp hr
    rw [← hpr2] at hyr
    rw [(hg pr hpr).2.2.2.2] at hyr
    exact List.eq_of_mem_replicate hyr
  have hmerged : (m.take sz).Perm ((g.map realPart).flatten) := by
    have h6 := sorted_take_real cfg.cmp cfg.maxV hmaxmax m
      ((g.map realPart).flatten)
      ((g.map (fun pr => pr.1.drop pr.2)).flatten)
      hsortedm hpermm hRreal hPmax
    rwa [hRlen] at h6
  refine ⟨hmerged, hsortedm.sublist (List.take_sublist _ _), ?_, ?_⟩
  · rw [hmerged.length_eq, hRlen]
  · intro x hx
    exact hRreal x (hmerged.subset hx)

/-! ### Recursive merging: one group -/

theorem mergeGroup_spec {α : Type} (cfg : Config α) (hB : 0 < cfg.B)
    (hneg : ∀ a b c, cfg.cmp b a = false → cfg.cmp c b = false →
      cfg.cmp c a = false)
    (hasym : ∀ a b, cfg.cmp a b = true → cfg.cmp b a = false)
    (hmaxmax : cfg.cmp cfg.maxV cfg.maxV = false)
    (g : List (List α × Nat))
    (hg : ∀ pr ∈ g, RunWf cfg.cmp cfg.maxV cfg.B pr) :
    RunWf cfg.cmp cfg.maxV cfg.B (mergeGroup cfg.cmp cfg.maxV cfg.B g) ∧
    (realPart (mergeGroup cfg.cmp cfg.maxV cfg.B g)).Perm
      ((g.map realPart).flatten) ∧
    (mergeGroup cfg.cmp cfg.maxV cfg.B g).2 = (g.map Prod.snd).sum := by
  rcases g with _ | ⟨gr, _ | ⟨gr2, rest⟩⟩
  · -- empty group (does not occur in the source; the general branch applies)
    have h0 : ceilDiv 0 cfg.B = 0 := by
      rw [ceilDiv]
      exact Nat.div_eq_of_lt (by omega)
    have hempty : mergeGroup cfg.cmp cfg.maxV cfg.B
        ([] : List (List α × Nat)) = ([], 0) := by
      simp [mergeGroup, kMerge, h0]
    rw [hempty]
    refine ⟨?_, by simp [realPart], by simp⟩
    simp [RunWf, realPart, h0]
  · -- singleton group: carried over unchanged
    refine ⟨hg gr (List.mem_cons_self _ _), ?_, by simp [mergeGroup]⟩
    simp [mergeGroup]
  · -- general group: merged by the inner merger, then padded
    set g := gr :: gr2 :: rest with hgdef
    have hmg : mergeGroup cfg.cmp cfg.maxV cfg.B g =
        (((kMerge cfg.cmp (g.map Prod.fst)).take ((g.map Prod.snd).sum)) ++
          List.replicate
            (ceilDiv ((g.map Prod.snd).sum) cfg.B * cfg.B -
              (g.map Prod.snd).sum) cfg.maxV,
         (g.map Prod.snd).sum) := by
      rw [hgdef]
      rfl
    obtain ⟨hmerged, hmergedsorted, hmergedlen, hmergedreal⟩ :=
      kMerge_take_spec cfg hneg hasym hmaxmax g hg
    have hwf := runWf_of_sorted cfg.cmp cfg.maxV cfg.B hB hmaxmax hasym
      ((kMerge cfg.cmp (g.map Prod.fst)).take ((g.map Prod.snd).sum))
      ((g.map Prod.snd).sum) hmergedlen hmergedsorted hmergedreal
    rw [hmg]
    refine ⟨hwf, ?_, rfl⟩
    rw [realPart]
    show (((kMerge cfg.cmp (g.map Prod.fst)).take ((g.map Prod.snd).sum) ++
      _).take ((g.map Prod.snd).sum)).Perm _
    rw [List.take_left' hmergedlen]
    exact hmerged

/-! ### Recursive merging: the phase loop -/

theorem flatten_map_perm_congr {β γ : Type} (f g : β → List γ)
    (L : List β) (h : ∀ b ∈ L, (f b).Perm (g b)) :
    ((L.map f).flatten).Perm ((L.map g).flatten) := by
  induction L with
  | nil => simp
  | cons b rest ih =>
      simp only [List.map_cons, List.flatten_cons]
      exact (h b (List.mem_cons_self _ _)).append
        (ih (fun x hx => h x (List.mem_cons_of_mem _ hx)))

theorem mergeRecLoop_spec {α : Type} (cfg : Config α) (hB : 0 < cfg.B)
    (hneg : ∀ a b c, cfg.cmp b a = false → cfg.cmp c b = false →
      cfg.cmp c a = false)
    (hasym : ∀ a b, cfg.cmp a b = true → cfg.cmp b a = false)
    (hmaxmax : cfg.cmp cfg.maxV cfg.maxV = false)
    (maxA f : Nat) :
    ∀ (n : Nat) (prs : List (List α × Nat)), prs.length ≤ n →
      (∀ pr ∈ prs, RunWf cfg.cmp cfg.maxV cfg.B pr) →
      (∀ pr ∈ mergeRecLoop cfg.cmp cfg.maxV cfg.B maxA f prs,
          RunWf cfg.cmp cfg.maxV cfg.B pr) ∧
      (((mergeRecLoop cfg.cmp cfg.maxV cfg.B maxA f prs).map
          realPart).flatten).Perm ((prs.map realPart).flatten) ∧
      ((mergeRecLoop cfg.cmp cfg.maxV cfg.B maxA f prs).map Prod.snd).sum =
        (prs.map Prod.snd).sum := by
  intro n
  induction n with
  | zero =>
      intro prs hlen hwf
      have hnil : prs = [] := List.length_eq_zero.mp (by omega)
      subst hnil
      rw [mergeRecLoop]
      simp
  | succ n ih =>
      intro prs hlen hwf
      rw [mergeRecLoop]
      by_cases hguard : 2 ≤ f ∧ maxA < prs.length ∧ 2 ≤ prs.length
      · rw [dif_pos hguard]
        have hflat : (chunksOf f prs).flatten = prs :=
          chunksOf_flatten f prs (by omega)
        have hmemg : ∀ g ∈ chunksOf f prs, ∀ pr ∈ g,
            RunWf cfg.cmp cfg.maxV cfg.B pr := by
          intro g hg pr hpr
          refine hwf pr ?_
          rw [← hflat]
          exact List.mem_flatten_of_mem hg hpr
        have hgroup : ∀ g ∈ chunksOf f prs,
            RunWf cfg.cmp cfg.maxV cfg.B
              (mergeGroup cfg.cmp cfg.maxV cfg.B g) ∧
            (realPart (mergeGroup cfg.cmp cfg.maxV cfg.B g)).Perm
              ((g.map realPart).flatten) ∧
            (mergeGroup cfg.cmp cfg.maxV cfg.B g).2 =
              (g.map Prod.snd).sum := by
          intro g hg
          exact mergeGroup_spec cfg hB hneg hasym hmaxmax g (hmemg g hg)
        have hnewlen :
            ((chunksOf f prs).map (mergeGroup cfg.cmp cfg.maxV cfg.B)).length
              < prs.length := by
          rw [List.length_map, chunksOf_length]
          exact ceilDiv_lt_self _ f hguard.1 hguard.2.2
        have hnewwf : ∀ pr ∈ (chunksOf f prs).map
            (mergeGroup cfg.cmp cfg.maxV cfg.B),
            RunWf cfg.cmp cfg.maxV cfg.B pr := by
          intro pr hpr
          obtain ⟨g, hg, hg2⟩ := List.mem_map.mp hpr
          rw [← hg2]
          exact (hgroup g hg).1
        obtain ⟨ih1, ih2, ih3⟩ := ih
          ((chunksOf f prs).map (mergeGroup cfg.cmp cfg.maxV cfg.B))
          (by omega) hnewwf
        refine ⟨ih1, ?_, ?_⟩
        · refine ih2.trans ?_
          rw [List.map_map]
          have hstep : (((chunksOf f prs).map
              (realPart ∘ mergeGroup cfg.cmp cfg.maxV cfg.B)).flatten).Perm
              (((chunksOf f prs).map
                (fun g => (g.map realPart).flatten)).flatten) := by
            refine flatten_map_perm_congr _ _ _ ?_
            intro g hg
            exact (hgroup g hg).2.1
          refine hstep.trans ?_
          have heq : ((chunksOf f prs).map
              (fun g => (g.map realPart).flatten)) =
              ((chunksOf f prs).map (List.map realPart)).map List.flatten := by
            rw [List.map_map]
            rfl
          rw [heq, ← List.flatten_flatten, ← List.map_flatten, hflat]
        · rw [ih3, List.map_map]
          have heq : ((chunksOf f prs).map
              (Prod.snd ∘ mergeGroup cfg.cmp cfg.maxV cfg.B)) =
              ((chunksOf f prs).map (List.map Prod.snd)).map List.sum := by
            rw [List.map_map]
            refine List.map_congr_left ?_
            intro g hg
            exact (hgroup g hg).2.2
          rw [heq, ← List.sum_flatten, ← List.map_flatten, hflat]
      · rw [dif_neg hguard]
        exact ⟨hwf, List.Perm.refl _, rfl⟩

theorem mergeRecLoop_length {α : Type} (cfg : Config α) (maxA f : Nat)
    (hf : 2 ≤ f) (hA : 1 ≤ maxA) :
    ∀ (n : Nat) (prs : List (List α × Nat)), prs.length ≤ n →
      (mergeRecLoop cfg.cmp cfg.maxV cfg.B maxA f prs).length ≤ maxA := by
  intro n
  induction n with
  | zero =>
      intro prs hlen
      have hnil : prs = [] := List.length_eq_zero.mp (by omega)
      subst hnil
      rw [mergeRecLoop]
      simp
  | succ n ih =>
      intro prs hlen
      rw [mergeRecLoop]
      by_cases hguard : 2 ≤ f ∧ maxA < prs.length ∧ 2 ≤ prs.length
      · rw [dif_pos hguard]
        refine ih _ ?_
        have hnewlen :
            ((chunksOf f prs).map (mergeGroup cfg.cmp cfg.maxV cfg.B)).length
              < prs.length := by
          rw [List.length_map, chunksOf_length]
          exact ceilDiv_lt_self _ f hguard.1 hguard.2.2
        omega
      · rw [dif_neg hguard]
        push_neg at hguard
        have := hguard hf
        omega

/-! ### Descriptor-level facts -/

theorem descReal_length {α : Type} (cmp : α → α → Bool) (maxV : α) (B : Nat)
    (d : SortedRunsD α) (hwf : DescWf cmp maxV B d) :
    (descReal d).length = d.elements := by
  obtain ⟨hlen, helem, _, hrun⟩ := hwf
  rw [descReal, List.length_flatten, List.map_map, helem]
  have h1 : (d.runs.zip d.runsSizes).map (List.length ∘ realPart) =
      (d.runs.zip d.runsSizes).map Prod.snd := by
    refine List.map_congr_left ?_
    intro pr hpr
    show (pr.1.take pr.2).length = pr.2
    rw [List.length_take]
    exact Nat.min_eq_left ((hrun pr hpr).2.1)
  rw [h1, List.map_snd_zip _ _ (le_of_eq hlen)]

theorem mergeRecursively_spec {α : Type} (cfg : Config α) (hB : 0 < cfg.B)
    (hneg : ∀ a b c, cfg.cmp b a = false → cfg.cmp c b = false →
      cfg.cmp c a = false)
    (hasym : ∀ a b, cfg.cmp a b = true → cfg.cmp b a = false)
    (hmaxmax : cfg.cmp cfg.maxV cfg.maxV = false)
    (hA : 1 ≤ cfg.maxArity)
    (d : SortedRunsD α) (hwf : DescWf cfg.cmp cfg.maxV cfg.B d) :
    DescWf cfg.cmp cfg.maxV cfg.B (mergeRecursively cfg d) ∧
    (descReal (mergeRecursively cfg d)).Perm (descReal d) ∧
    (mergeRecursively cfg d).elements = d.elements ∧
    (mergeRecursively cfg d).smallRun = d.smallRun ∧
    (mergeRecursively cfg d).runs.length ≤ cfg.maxArity := by
  obtain ⟨hlen, helem, hsmall, hrun⟩ := hwf
  have hf : 2 ≤ optimalMergeFactor d.runs.length cfg.maxArity :=
    Nat.le_max_left 2 _
  obtain ⟨hwfp, hpermp, hsump⟩ := mergeRecLoop_spec cfg hB hneg hasym hmaxmax
    cfg.maxArity (optimalMergeFactor d.runs.length cfg.maxArity)
    (d.runs.zip d.runsSizes).length (d.runs.zip d.runsSizes) (Nat.le_refl _)
    hrun
  have hplen := mergeRecLoop_length cfg cfg.maxArity
    (optimalMergeFactor d.runs.length cfg.maxArity) hf hA
    (d.runs.zip d.runsSizes).length (d.runs.zip d.runsSizes) (Nat.le_refl _)
  set p := mergeRecLoop cfg.cmp cfg.maxV cfg.B cfg.maxArity
    (optimalMergeFactor d.runs.length cfg.maxArity)
    (d.runs.zip d.runsSizes) with hpdef
  have hd2 : mergeRecursively cfg d =
      { runs := p.map Prod.fst, runsSizes := p.map Prod.snd,
        elements := d.elements, smallRun := d.smallRun } := rfl
  have hzipp : (p.map Prod.fst).zip (p.map Prod.snd) = p := by
    rw [List.zip_map']
    simp
  rw [hd2]
  refine ⟨⟨by simp, ?_, hsmall, ?_⟩, ?_, rfl, rfl, by simpa using hplen⟩
  · show d.elements = (p.map Prod.snd).sum
    rw [hsump, List.map_snd_zip _ _ (le_of_eq hlen), helem]
  · intro pr hpr
    rw [hzipp] at hpr
    exact hwfp pr hpr
  · show ((((p.map Prod.fst).zip (p.map Prod.snd)).map realPart).flatten).Perm
      (descReal d)
    rw [hzipp, descReal]
    exact hpermp

/-! ### Merger memory arithmetic -/

theorem memoryForBuffers_eq {α : Type} (cfg : Config α) :
    cfg.memoryForBuffers = (4 * cfg.disks + 1) * cfg.rawBlockSize := by
  rw [Config.memoryForBuffers]
  ring

theorem abort_iff_maxArity_lt_two {α : Type} (cfg : Config α)
    (hraw : 0 < cfg.rawBlockSize) :
    (cfg.recursiveMergeBuffers < 2 * cfg.minPrefetchBuffers + 1 + 2) ↔
      cfg.maxArity < 2 := by
  rw [Config.recursiveMergeBuffers, Config.minPrefetchBuffers,
    Config.maxArity, memoryForBuffers_eq]
  by_cases hcase : (4 * cfg.disks + 1) * cfg.rawBlockSize ≤ cfg.mergerMemory
  · rw [Nat.mul_comm (4 * cfg.disks + 1) cfg.rawBlockSize] at hcase ⊢
    rw [Nat.sub_mul_div cfg.mergerMemory cfg.rawBlockSize
      (4 * cfg.disks + 1) hcase]
    have hq : 4 * cfg.disks + 1 ≤ cfg.mergerMemory / cfg.rawBlockSize :=
      (Nat.le_div_iff_mul_le hraw).mpr (by
        rw [Nat.mul_comm]
        exact hcase)
    omega
  · have h0 : cfg.mergerMemory - (4 * cfg.disks + 1) * cfg.rawBlockSize = 0 :=
      by omega
    rw [h0, Nat.zero_div]
    have hlt : cfg.mergerMemory / cfg.rawBlockSize < 4 * cfg.disks + 1 := by
      rw [Nat.div_lt_iff_lt_mul hraw]
      omega
    constructor
    · intro _
      omega
    · intro _
      omega

theorem maxArity_add_le_inputBuffers {α : Type} (cfg : Config α)
    (hraw : 0 < cfg.rawBlockSize)
    (h : ¬ (cfg.recursiveMergeBuffers < 2 * cfg.minPrefetchBuffers + 1 + 2)) :
    cfg.maxArity + cfg.minPrefetchBuffers ≤ cfg.inputBuffers := by
  rw [Config.recursiveMergeBuffers, Config.minPrefetchBuffers] at h
  have hq : 4 * cfg.disks + 3 ≤ cfg.mergerMemory / cfg.rawBlockSize := by
    omega
  have hm : (4 * cfg.disks + 3) * cfg.rawBlockSize ≤ cfg.mergerMemory := by
    rw [← Nat.le_div_iff_mul_le hraw]
    exact hq
  rw [Config.maxArity, memoryForBuffers_eq, Config.inputBuffers,
    Config.minPrefetchBuffers]
  have h1 : cfg.mergerMemory - (4 * cfg.disks + 1) * cfg.rawBlockSize =
      cfg.mergerMemory - cfg.rawBlockSize * (4 * cfg.disks + 1) := by
    rw [Nat.mul_comm]
  have h2 : (cfg.mergerMemory - cfg.rawBlockSize * (4 * cfg.disks + 1)) /
      cfg.rawBlockSize =
      cfg.mergerMemory / cfg.rawBlockSize - (4 * cfg.disks + 1) :=
    Nat.sub_mul_div cfg.mergerMemory cfg.rawBlockSize (4 * cfg.disks + 1)
      (by
        rw [Nat.mul_comm]
        calc (4 * cfg.disks + 1) * cfg.rawBlockSize ≤
            (4 * cfg.disks + 3) * cfg.rawBlockSize :=
              Nat.mul_le_mul (by omega) (Nat.le_refl _)
          _ ≤ cfg.mergerMemory := hm)
  have h3 : cfg.mergerMemory - cfg.rawBlockSize =
      cfg.mergerMemory - cfg.rawBlockSize * 1 := by
    rw [Nat.mul_one]
  have h4 : (cfg.mergerMemory - cfg.rawBlockSize * 1) / cfg.rawBlockSize =
      cfg.mergerMemory / cfg.rawBlockSize - 1 :=
    Nat.sub_mul_div cfg.mergerMemory cfg.rawBlockSize 1 (by
      have : (1 : Nat) * cfg.rawBlockSize ≤
          (4 * cfg.disks + 3) * cfg.rawBlockSize :=
        Nat.mul_le_mul (by omega) (Nat.le_refl _)
      omega)
  rw [h1, h2, h3, h4]
  omega

theorem maxArity_ge_two {α : Type} (cfg : Config α)
    (hraw : 0 < cfg.rawBlockSize)
    (h : ¬ (cfg.recursiveMergeBuffers < 2 * cfg.minPrefetchBuffers + 1 + 2)) :
    2 ≤ cfg.maxArity := by
  have h2 := (abort_iff_maxArity_lt_two cfg hraw).not.mp h
  omega

theorem kMerge_runs_take_spec {α : Type} (cfg : Config α)
    (hneg : ∀ a b c, cfg.cmp b a = false → cfg.cmp c b = false →
      cfg.cmp c a = false)
    (hasym : ∀ a b, cfg.cmp a b = true → cfg.cmp b a = false)
    (hmaxmax : cfg.cmp cfg.maxV cfg.maxV = false)
    (d : SortedRunsD α) (hwf : DescWf cfg.cmp cfg.maxV cfg.B d) :
    ((kMerge cfg.cmp d.runs).take d.elements).Pairwise
      (fun a b => cfg.cmp b a = false) ∧
    ((kMerge cfg.cmp d.runs).take d.elements).Perm (descReal d) := by
  obtain ⟨hlen, helem, hsmall, hrun⟩ := hwf
  obtain ⟨hperm, hsorted, _, _⟩ := kMerge_take_spec cfg hneg hasym hmaxmax
    (d.runs.zip d.runsSizes) hrun
  have h1 : (d.runs.zip d.runsSizes).map Prod.fst = d.runs :=
    List.map_fst_zip _ _ (le_of_eq hlen.symm)
  have h2 : ((d.runs.zip d.runsSizes).map Prod.snd).sum = d.elements := by
    rw [List.map_snd_zip _ _ (le_of_eq hlen), helem]
  rw [h1, h2] at hperm hsorted
  refine ⟨hsorted, ?_⟩
  rw [descReal]
  exact hperm

theorem mergerInitialize_spec {α : Type} (cfg : Config α) (hB : 0 < cfg.B)
    (hneg : ∀ a b c, cfg.cmp b a = false → cfg.cmp c b = false →
      cfg.cmp c a = false)
    (hasym : ∀ a b, cfg.cmp a b = true → cfg.cmp b a = false)
    (hmaxmax : cfg.cmp cfg.maxV cfg.maxV = false)
    (hraw : 0 < cfg.rawBlockSize)
    (d d2 : SortedRunsD α) (out : List α)
    (hwf : DescWf cfg.cmp cfg.maxV cfg.B d)
    (h : mergerInitialize cfg d = Except.ok (d2, out)) :
    DescWf cfg.cmp cfg.maxV cfg.B d2 ∧ (descReal d2).Perm (descReal d) ∧
    out.Pairwise (fun a b => cfg.cmp b a = false) ∧ out.Perm (descReal d) := by
  rw [mergerInitialize] at h
  by_cases h0 : d.elements = 0
  · rw [if_pos h0] at h
    simp only [Except.ok.injEq, Prod.mk.injEq] at h
    obtain ⟨h1, h2⟩ := h
    subst h1
    subst h2
    have hdr : descReal d = [] := by
      have hl := descReal_length cfg.cmp cfg.maxV cfg.B d hwf
      rw [h0] at hl
      exact List.length_eq_zero.mp hl
    refine ⟨hwf, List.Perm.refl _, List.Pairwise.nil, ?_⟩
    rw [hdr]
  · rw [if_neg h0] at h
    have hsm : ¬ (d.smallRun.length ≠ 0) := by
      rw [hwf.2.2.1]
      simp
    rw [if_neg hsm] at h
    by_cases hfeas : cfg.inputBuffers < d.runs.length + cfg.minPrefetchBuffers
    · rw [if_pos hfeas] at h
      by_cases habort : cfg.recursiveMergeBuffers <
          2 * cfg.minPrefetchBuffers + 1 + 2
      · rw [if_pos habort] at h
        exact Except.noConfusion h
      · rw [if_neg habort] at h
        simp only [Except.ok.injEq, Prod.mk.injEq] at h
        obtain ⟨h1, h2⟩ := h
        subst h1
        subst h2
        have hA : 1 ≤ cfg.maxArity := by
          have h3 := maxArity_ge_two cfg hraw habort
          omega
        obtain ⟨hwf2, hperm2, _, _, _⟩ := mergeRecursively_spec cfg hB hneg
          hasym hmaxmax hA d hwf
        obtain ⟨hsorted3, hperm3⟩ := kMerge_runs_take_spec cfg hneg hasym
          hmaxmax (mergeRecursively cfg d) hwf2
        exact ⟨hwf2, hperm2, hsorted3, hperm3.trans hperm2⟩
    · rw [if_neg hfeas] at h
      simp only [Except.ok.injEq, Prod.mk.injEq] at h
      obtain ⟨h1, h2⟩ := h
      subst h1
      subst h2
      obtain ⟨hsorted3, hperm3⟩ := kMerge_runs_take_spec cfg hneg hasym
        hmaxmax d hwf
      exact ⟨hwf, List.Perm.refl _, hsorted3, hperm3⟩

theorem mergerInitialize_idem {α : Type} (cfg : Config α)
    (hraw : 0 < cfg.rawBlockSize)
    (d d2 : SortedRunsD α) (out : List α)
    (h : mergerInitialize cfg d = Except.ok (d2, out)) :
    mergerInitialize cfg d2 = Except.ok (d2, out) := by
  rw [mergerInitialize] at h
  by_cases h0 : d.elements = 0
  · rw [if_pos h0] at h
    simp only [Except.ok.injEq, Prod.mk.injEq] at h
    obtain ⟨h1, h2⟩ := h
    subst h1
    subst h2
    rw [mergerInitialize, if_pos h0]
  · rw [if_neg h0] at h
    by_cases hsm : d.smallRun.length ≠ 0
    · rw [if_pos hsm] at h
      simp only [Except.ok.injEq, Prod.mk.injEq] at h
      obtain ⟨h1, h2⟩ := h
      subst h1
      subst h2
      rw [mergerInitialize, if_neg h0, if_pos hsm]
    · rw [if_neg hsm] at h
      by_cases hfeas : cfg.inputBuffers <
          d.runs.length + cfg.minPrefetchBuffers
      · rw [if_pos hfeas] at h
        by_cases habort : cfg.recursiveMergeBuffers <
            2 * cfg.minPrefetchBuffers + 1 + 2
        · rw [if_pos habort] at h
          exact Except.noConfusion h
        · rw [if_neg habort] at h
          simp only [Except.ok.injEq, Prod.mk.injEq] at h
          obtain ⟨h1, h2⟩ := h
          subst h1
          subst h2
          have helem2 : (mergeRecursively cfg d).elements = d.elements := rfl
          have hsmall2 : (mergeRecursively cfg d).smallRun = d.smallRun := rfl
          have hruns2 : (mergeRecursively cfg d).runs.length ≤
              cfg.maxArity := by
            show ((mergeRecLoop cfg.cmp cfg.maxV cfg.B cfg.maxArity
              (optimalMergeFactor d.runs.length cfg.maxArity)
              (d.runs.zip d.runsSizes)).map Prod.fst).length ≤ cfg.maxArity
            rw [List.length_map]
            refine mergeRecLoop_length cfg cfg.maxArity _
              (Nat.le_max_left 2 _) ?_ (d.runs.zip d.runsSizes).length _
              (Nat.le_refl _)
            have h3 := maxArity_ge_two cfg hraw habort
            omega
          rw [mergerInitialize]
          rw [if_neg (by rw [helem2]; exact h0)]
          rw [if_neg (by rw [hsmall2]; exact hsm)]
          rw [if_neg (by
            have harith := maxArity_add_le_inputBuffers cfg hraw habort
            omega)]
      · rw [if_neg hfeas] at h
        simp only [Except.ok.injEq, Prod.mk.injEq] at h
        obtain ⟨h1, h2⟩ := h
        subst h1
        subst h2
        rw [mergerInitialize, if_neg h0, if_neg hsm, if_neg hfeas]

/-! ### Sorter facade plumbing -/

theorem sorter_pushAll_creator {α : Type} (cfg : Config α) :
    ∀ (l : List α) (s : Sorter α),
      Sorter.pushAll cfg s l =
        { s with creator := s.creator.pushAll cfg l } := by
  intro l
  induction l with
  | nil =>
      intro s
      rfl
  | cons v t ih =>
      intro s
      show Sorter.pushAll cfg (Sorter.push cfg s v) t = _
      rw [ih]
      rfl

/-- Claim C1: for every finite sequence of elements pushed into a sorter in
the INPUT state, after `sort()` the stream read out via `operator*()` and
`operator++()` until `empty()` (the staged merger output) is non-decreasing
under `cmp`, and its multiset of elements equals the multiset of the pushed
elements.  The hypotheses are the engine's comparator contract: `cmp` is a
strict weak order (transitivity of the complement and asymmetry), the
sentinel `max_value` is irreflexive under `cmp`, and every pushed element
precedes `max_value` strictly. -/
theorem sorter_drain_sorted_permutation {α : Type} (cfg : Config α)
    (l : List α) (s1 : Sorter α)
    (hB : 0 < cfg.B) (hm2 : 0 < cfg.m2) (hraw : 0 < cfg.rawBlockSize)
    (hneg : ∀ a b c, cfg.cmp b a = false → cfg.cmp c b = false →
      cfg.cmp c a = false)
    (hasym : ∀ a b, cfg.cmp a b = true → cfg.cmp b a = false)
    (hmaxmax : cfg.cmp cfg.maxV cfg.maxV = false)
    (hmax : ∀ x ∈ l, cfg.cmp x cfg.maxV = true)
    (h : Sorter.sortOp cfg (Sorter.pushAll cfg (Sorter.init α) l) =
      Except.ok s1) :
    s1.mergerOut.Pairwise (fun a b => cfg.cmp b a = false) ∧
    s1.mergerOut.Perm l := by
  have hps := sorter_pushAll_creator cfg l (Sorter.init α)
  have hinv : ChunksInv cfg l
      (PushCreator.pushAll cfg (PushCreator.init α) l) := by
    have h1 := chunksInv_pushAll cfg hB hm2 l [] (PushCreator.init α)
      (chunksInv_init cfg)
    simpa using h1
  have hflag : (PushCreator.pushAll cfg (PushCreator.init α) l).resultComputed
      = false := by
    obtain ⟨_, _, _, _, _, _, _, _, hf, _⟩ := hinv
    exact hf
  have hrf : ((PushCreator.pushAll cfg (PushCreator.init α) l).resultFinish
      cfg).result =
      ((PushCreator.pushAll cfg (PushCreator.init α) l).computeResult
        cfg).result := by
    rw [PushCreator.resultFinish, if_neg (by rw [hflag]; simp)]
  simp only [Sorter.sortOp, hps] at h
  simp only [Sorter.init] at h
  rw [if_neg (by simp)] at h
  simp only [hrf] at h
  rcases hminit : mergerInitialize cfg
      ((PushCreator.pushAll cfg (PushCreator.init α) l).computeResult
        cfg).result with e | pr
  · rw [hminit] at h
    exact Except.noConfusion h
  · rw [hminit] at h
    simp only [Except.ok.injEq] at h
    have hout : s1.mergerOut = pr.2 := by
      rw [← h]
    rw [hout]
    rcases computeResult_spec cfg hB hm2 hneg hasym hmaxmax l hmax
      (PushCreator.pushAll cfg (PushCreator.init α) l) hinv with
      ⟨hwf, hperm⟩ | ⟨hruns, hsmallrun, helems, hlenne⟩
    · obtain ⟨_, _, hsorted, houtperm⟩ := mergerInitialize_spec cfg hB hneg
        hasym hmaxmax hraw _ pr.1 pr.2 hwf (by rw [hminit])
      exact ⟨hsorted, houtperm.trans hperm⟩
    · rw [mergerInitialize] at hminit
      rw [if_neg (by rw [helems]; exact hlenne)] at hminit
      rw [if_pos (by
        rw [hsmallrun, internalSort_length]
        exact hlenne)] at hminit
      simp only [Except.ok.injEq] at hminit
      have hpr2 : pr.2 = internalSort cfg.cmp l := by
        rw [← hminit, hsmallrun]
      rw [hpr2]
      exact ⟨internalSort_sorted cfg.cmp hneg hasym l,
        internalSort_perm cfg.cmp l⟩

theorem resultFinish_computed {α : Type} (cfg : Config α)
    (c : PushCreator α) : (c.resultFinish cfg).resultComputed = true := by
  rw [PushCreator.resultFinish]
  by_cases h : c.resultComputed
  · rw [if_pos h]
    exact h
  · rw [if_neg h]

/-- Claim C5: for a sorter in the OUTPUT state (reached by a successful
`sort()`), two complete drains of the output stream separated by one
`rewind()` yield identical element sequences: `rewind()` deallocates the
merger, returns to INPUT and re-runs `sort()` over the already-produced runs,
reproducing exactly the same sorter state, so the re-staged merger output
(the second drain) equals the first. -/
theorem sorter_rewind_identical_drain {α : Type} (cfg : Config α)
    (hraw : 0 < cfg.rawBlockSize) (s s1 : Sorter α)
    (h : Sorter.sortOp cfg s = Except.ok s1) :
    Sorter.rewind cfg s1 = Except.ok s1 := by
  simp only [Sorter.sortOp] at h
  set cbase := ((if s.st = SorterSt.output then
      { s with mergerOut := ([] : List α) } else s).creator.resultFinish cfg)
    with hcbase
  rcases hminit : mergerInitialize cfg cbase.result with e | pr
  · rw [hminit] at h
    exact Except.noConfusion h
  · rw [hminit] at h
    simp only [Except.ok.injEq] at h
    subst h
    have hidem := mergerInitialize_idem cfg hraw _ pr.1 pr.2
      (by rw [hminit])
    rw [Sorter.rewind]
    simp only [Sorter.sortOp]
    rw [if_neg (by simp)]
    have hcomputed : ({ cbase with result := pr.1 } :
        PushCreator α).resultComputed = true := by
      show cbase.resultComputed = true
      rw [hcbase]
      exact resultFinish_computed cfg _
    have hrf : ({ cbase with result := pr.1 } :
        PushCreator α).resultFinish cfg = { cbase with result := pr.1 } := by
      rw [PushCreator.resultFinish, if_pos hcomputed]
    simp only [hrf]
    simp only [hidem]

/-- Helper: pushing at most one memory half never flushes a run. -/
theorem pushAll_no_flush {α : Type} (cfg : Config α) :
    ∀ (l : List α) (c : PushCreator α),
      c.curEl.length + l.length ≤ cfg.elInRun →
      c.pushAll cfg l = { c with curEl := c.curEl ++ l } := by
  intro l
  induction l with
  | nil =>
      intro c h
      show c = _
      simp
  | cons v t ih =>
      intro c h
      show (c.push cfg v).pushAll cfg t = _
      rw [PushCreator.push, if_pos (by
        simp only [List.length_cons] at h
        omega)]
      rw [ih _ (by
        simp only [List.length_append, List.length_cons, List.length_nil]
        simp only [List.length_cons] at h
        omega)]
      simp [List.append_assoc]

/-- Claim C2: for every input of at most `B` elements with no run yet
flushed, finishing the run creator stores the sorted elements in the
descriptor's small-run buffer, allocates no block ids from the (mock) block
manager, and the merged output is the sorted input; the shortcut is reachable
both from the push-mode creator (`runs_creator<use_push>::compute_result`)
and from the stream-mode creator (`basic_runs_creator::compute_result`). -/
theorem small_input_optimization {α : Type} (cfg : Config α) (l : List α)
    (hB : 0 < cfg.B) (hm2 : 0 < cfg.m2) (hlen : l.length ≤ cfg.B) :
    ((PushCreator.pushAll cfg (PushCreator.init α) l).computeResult
        cfg).result.smallRun = internalSort cfg.cmp l ∧
    ((PushCreator.pushAll cfg (PushCreator.init α) l).computeResult
        cfg).bids = 0 ∧
    ((PushCreator.pushAll cfg (PushCreator.init α) l).computeResult
        cfg).result.runs = [] ∧
    mergerInitialize cfg ((PushCreator.pushAll cfg (PushCreator.init α)
        l).computeResult cfg).result =
      Except.ok (((PushCreator.pushAll cfg (PushCreator.init α)
        l).computeResult cfg).result, internalSort cfg.cmp l) ∧
    (basicComputeResult cfg l).1.smallRun = internalSort cfg.cmp l ∧
    (basicComputeResult cfg l).2 = 0 ∧
    (basicComputeResult cfg l).1.runs = [] ∧
    mergerInitialize cfg (basicComputeResult cfg l).1 =
      Except.ok ((basicComputeResult cfg l).1, internalSort cfg.cmp l) := by
  have hBE : cfg.B ≤ cfg.elInRun := by
    rw [Config.elInRun]
    calc cfg.B = 1 * cfg.B := by omega
      _ ≤ cfg.m2 * cfg.B := Nat.mul_le_mul hm2 (Nat.le_refl _)
  have hpush : PushCreator.pushAll cfg (PushCreator.init α) l =
      { PushCreator.init α with curEl := l } := by
    have h1 := pushAll_no_flush cfg l (PushCreator.init α) (by
      show (List.nil).length + l.length ≤ cfg.elInRun
      simp
      omega)
    simpa using h1
  have hcompute : (PushCreator.pushAll cfg (PushCreator.init α)
      l).computeResult cfg =
      { PushCreator.init α with
        curEl := l
        result := ⟨[], [], l.length, internalSort cfg.cmp l⟩ } := by
    rw [hpush, PushCreator.computeResult]
    by_cases h0 : l.length = 0
    · rw [if_pos (by simpa using h0)]
      have hnil : l = [] := List.length_eq_zero.mp h0
      subst hnil
      simp [PushCreator.init, SortedRunsD.empty, internalSort]
    · rw [if_neg (by simpa using h0)]
      rw [if_pos (by
        constructor
        · simpa using hlen
        · rfl)]
      simp [PushCreator.init, SortedRunsD.empty]
  have hminitsmall : ∀ d : SortedRunsD α,
      d.elements = l.length → d.smallRun = internalSort cfg.cmp l →
      mergerInitialize cfg d = Except.ok (d, internalSort cfg.cmp l) := by
    intro d helems hsmall
    rw [mergerInitialize]
    by_cases h0 : l.length = 0
    · rw [if_pos (by rw [helems]; exact h0)]
      have hnil : l = [] := List.length_eq_zero.mp h0
      subst hnil
      simp [internalSort]
    · rw [if_neg (by rw [helems]; exact h0)]
      rw [if_pos (by
        rw [hsmall, internalSort_length]
        exact h0)]
      rw [hsmall]
  have hbasic : basicComputeResult cfg l =
      (⟨[], [], l.length, internalSort cfg.cmp l⟩, 0) := by
    rw [basicComputeResult]
    have hmin : min cfg.elInRun l.length = l.length :=
      Nat.min_eq_right (le_trans hlen hBE)
    rw [if_pos (by
      constructor
      · rw [hmin]
        exact hlen
      · rw [List.length_drop, hmin]
        omega)]
    rw [hmin, List.take_of_length_le (Nat.le_refl l.length)]
  refine ⟨?_, ?_, ?_, ?_, ?_, ?_, ?_, ?_⟩
  · rw [hcompute]
  · rw [hcompute]
    rfl
  · rw [hcompute]
  · rw [hcompute]
    exact hminitsmall _ rfl rfl
  · rw [hbasic]
  · rw [hbasic]
  · rw [hbasic]
  · rw [hbasic]
    exact hminitsmall _ rfl rfl

/-- Claim C3: constructing a runs creator with memory budget `M` raises
InsufficientMemory iff `2 * BlockSize * memory_usage_factor > M`; when
`2 * BlockSize * memory_usage_factor ≤ M` the memory check passes and
construction succeeds, holding `m_memsize = M / BlockSize / factor`.  The
sentinel validation (the assertion preceding the memory check) is assumed to
pass. -/
theorem creator_insufficient_memory_iff {α : Type} (cmp : α → α → Bool)
    (mn mx : α) (bs musf M : Nat)
    (hsent : verifySentinel cmp mn mx = true) :
    (creatorCtorCheck cmp mn mx bs musf M =
        Except.error CtorError.insufficientMemory ↔ M < 2 * bs * musf) ∧
    (2 * bs * musf ≤ M →
      creatorCtorCheck cmp mn mx bs musf M = Except.ok (M / bs / musf)) := by
  rw [creatorCtorCheck, if_neg (by rw [hsent]; simp)]
  by_cases hm : 2 * bs * musf ≤ M
  · rw [if_neg (by simpa using hm)]
    refine ⟨⟨fun hcon => Except.noConfusion hcon,
      fun hlt => absurd hm (by omega)⟩, fun _ => rfl⟩
  · rw [if_pos (by simpa using hm)]
    refine ⟨⟨fun _ => by omega, fun _ => rfl⟩, fun hc => absurd hc hm⟩

/-- Claim C9: at construction of every runs creator and runs merger with
comparator `cmp`, the engine validates that `¬cmp(MIN,MIN)`, `cmp(MIN,MAX)`,
`¬cmp(MAX,MIN)` and `¬cmp(MAX,MAX)` all hold on the sentinels; constructing
with a comparator violating any of the four fails this validation, and a
comparator satisfying all four passes it. -/
theorem sentinel_validation_iff {α : Type} (cmp : α → α → Bool) (mn mx : α)
    (bs musf : Nat) :
    ((∀ M, creatorCtorCheck cmp mn mx bs musf M ≠
        Except.error CtorError.sentinelViolation) ∧
      mergerCtorCheck cmp mn mx = Except.ok ()) ↔
    (cmp mn mn = false ∧ cmp mn mx = true ∧ cmp mx mn = false ∧
      cmp mx mx = false) := by
  by_cases hv : verifySentinel cmp mn mx = true
  · constructor
    · intro _
      rw [verifySentinel] at hv
      simp only [Bool.and_eq_true, Bool.not_eq_true'] at hv
      exact ⟨hv.1.1.1, hv.1.1.2, hv.1.2, hv.2⟩
    · intro _
      constructor
      · intro M hcon
        rw [creatorCtorCheck, if_neg (by rw [hv]; simp)] at hcon
        by_cases hm : 2 * bs * musf ≤ M
        · rw [if_neg (by simpa using hm)] at hcon
          exact Except.noConfusion hcon
        · rw [if_pos (by simpa using hm)] at hcon
          simp at hcon
      · rw [mergerCtorCheck, if_neg (by rw [hv]; simp)]
  · constructor
    · intro hcon
      exfalso
      have h2 := hcon.2
      rw [mergerCtorCheck, if_pos (by simpa using hv)] at h2
      exact Except.noConfusion h2
    · intro hfour
      exfalso
      refine hv ?_
      rw [verifySentinel]
      simp [hfour.1, hfour.2.1, hfour.2.2.1, hfour.2.2.2]

/-- Claim C4, counterexample: the claim predicts an InsufficientMemory abort
whenever a single-pass merge is infeasible and `max_arity < 3`; in the
configuration `memory_to_use = 7` blocks, one disk and ten runs, a single
pass is infeasible (6 input buffers < 10 runs + 2 prefetch buffers) and
`max_arity = 2 < 3`, yet the source's check `recursive_merge_buffers <
2 * min_prefetch_buffers + 1 + 2` (7 < 7) passes and initialize succeeds
via recursive merging instead of aborting. -/
theorem merger_abort_threshold_counterexample :
    cfgBoundary.inputBuffers <
      descTen.runs.length + cfgBoundary.minPrefetchBuffers ∧
    cfgBoundary.maxArity < 3 ∧
    descTen.elements ≠ 0 ∧ descTen.smallRun = [] ∧
    isOkB (mergerInitialize cfgBoundary descTen) = true := by
  refine ⟨by decide, by decide, by decide, rfl, ?_⟩
  rw [mergerInitialize]
  rw [if_neg (by decide), if_neg (by decide), if_pos (by decide),
    if_neg (by decide)]
  rfl

/-- Claim C4, amended: when merger initialization finds that a single-pass
merge is infeasible (input buffers < number of runs + 2*disks), it aborts
with InsufficientMemory iff `max_arity < 2` (equivalently, iff
`memory_to_use / raw_block_size < 2 * min_prefetch_buffers + 3`); when
`max_arity ≥ 2`, recursive merging proceeds and reduces the run count to at
most `max_arity`, after which a single pass is possible
(runs + 2*disks ≤ input buffers). -/
theorem merger_recursive_memory_check {α : Type} (cfg : Config α)
    (d : SortedRunsD α)
    (hraw : 0 < cfg.rawBlockSize)
    (helems : d.elements ≠ 0) (hsmall : d.smallRun = [])
    (hinfeasible : cfg.inputBuffers <
      d.runs.length + cfg.minPrefetchBuffers) :
    ((mergerInitialize cfg d = Except.error MergerError.insufficientMemory)
      ↔ cfg.maxArity < 2) ∧
    (2 ≤ cfg.maxArity →
      isOkB (mergerInitialize cfg d) = true ∧
      (mergerInitResultD cfg d).runs.length ≤ cfg.maxArity ∧
      (mergerInitResultD cfg d).runs.length + cfg.minPrefetchBuffers ≤
        cfg.inputBuffers) := by
  have hsm2 : ¬ (d.smallRun.length ≠ 0) := by
    rw [hsmall]
    simp
  constructor
  · rw [mergerInitialize, if_neg helems, if_neg hsm2, if_pos hinfeasible]
    by_cases habort : cfg.recursiveMergeBuffers <
        2 * cfg.minPrefetchBuffers + 1 + 2
    · rw [if_pos habort]
      exact ⟨fun _ => (abort_iff_maxArity_lt_two cfg hraw).mp habort,
        fun _ => rfl⟩
    · rw [if_neg habort]
      refine ⟨fun hcon => Except.noConfusion hcon, fun hlt => ?_⟩
      exact absurd ((abort_iff_maxArity_lt_two cfg hraw).mpr hlt) habort
  · intro hA2
    have habort : ¬ (cfg.recursiveMergeBuffers <
        2 * cfg.minPrefetchBuffers + 1 + 2) := by
      intro hcon
      have := (abort_iff_maxArity_lt_two cfg hraw).mp hcon
      omega
    have hred : mergerInitialize cfg d =
        Except.ok (mergeRecursively cfg d,
          (kMerge cfg.cmp (mergeRecursively cfg d).runs).take
            (mergeRecursively cfg d).elements) := by
      rw [mergerInitialize, if_neg helems, if_neg hsm2, if_pos hinfeasible,
        if_neg habort]
    have hlenrec : (mergeRecursively cfg d).runs.length ≤ cfg.maxArity := by
      show ((mergeRecLoop cfg.cmp cfg.maxV cfg.B cfg.maxArity
        (optimalMergeFactor d.runs.length cfg.maxArity)
        (d.runs.zip d.runsSizes)).map Prod.fst).length ≤ cfg.maxArity
      rw [List.length_map]
      exact mergeRecLoop_length cfg cfg.maxArity _ (Nat.le_max_left 2 _)
        (by omega) (d.runs.zip d.runsSizes).length _ (Nat.le_refl _)
    have hres : mergerInitResultD cfg d = mergeRecursively cfg d := by
      rw [mergerInitResultD, hred]
      rfl
    refine ⟨by rw [hred]; rfl, by rw [hres]; exact hlenrec, ?_⟩
    rw [hres]
    have harith := maxArity_add_le_inputBuffers cfg hraw habort
    omega

/-- Claim C6: in merger initialization, the flattened consume sequence of all
runs' trigger entries is stable-sorted by trigger value under `cmp`, so each
run's trigger entries occur in the consume sequence as a sublist in their
original intra-run order (block `i` precedes block `j` for `i < j`); with the
default identity prefetch schedule (`m_prefetch_seq[i] = i`) the prefetcher
issues reads in consume-sequence order, hence it never fetches a later block
of a run before an earlier block of the same run.  The hypotheses are the
strict-weak-order contract of `cmp` and the creator invariant that each run's
trigger values are non-decreasing. -/
theorem consume_sequence_intra_run_order {α : Type} (cmp : α → α → Bool)
    (hneg : ∀ a b c, cmp b a = false → cmp c b = false → cmp c a = false)
    (hasym : ∀ a b, cmp a b = true → cmp b a = false)
    (runs : List (List (TriggerEntry α)))
    (hrun : ∀ r ∈ runs,
      r.Pairwise (fun a b => cmp b.value a.value = false)) :
    prefetchSeq (consumeSeq cmp runs).length =
      List.range (consumeSeq cmp runs).length ∧
    ∀ r ∈ runs, r.Sublist (consumeSeq cmp runs) := by
  refine ⟨rfl, ?_⟩
  intro r hr
  have hsub : r.Sublist runs.flatten := List.sublist_flatten_of_mem hr
  have htrans : ∀ e1 e2 e3 : TriggerEntry α,
      (fun a b : TriggerEntry α => !(triggerEntryCmp cmp b a)) e1 e2 = true →
      (fun a b : TriggerEntry α => !(triggerEntryCmp cmp b a)) e2 e3 = true →
      (fun a b : TriggerEntry α => !(triggerEntryCmp cmp b a)) e1 e3 =
        true := by
    intro e1 e2 e3 h1 h2
    simp only [triggerEntryCmp, Bool.not_eq_true'] at h1 h2 ⊢
    exact hneg e1.value e2.value e3.value h1 h2
  have htotal : ∀ e1 e2 : TriggerEntry α,
      ((fun a b : TriggerEntry α => !(triggerEntryCmp cmp b a)) e1 e2 ||
       (fun a b : TriggerEntry α => !(triggerEntryCmp cmp b a)) e2 e1) =
        true := by
    intro e1 e2
    simp only [triggerEntryCmp, Bool.or_eq_true, Bool.not_eq_true']
    by_cases h : cmp e2.value e1.value = true
    · exact Or.inr (hasym _ _ h)
    · exact Or.inl (by simpa using h)
  have hpair : r.Pairwise (fun a b : TriggerEntry α =>
      (!(triggerEntryCmp cmp b a)) = true) := by
    refine (hrun r hr).imp ?_
    intro a b hab
    simpa [triggerEntryCmp] using hab
  exact List.sublist_mergeSort htrans htotal hpair hsub

/-- Claim C7, counterexample: for a merger in the OUTPUT state that is not
empty, `next_output_would_block()` is claimed to return true iff the next
`operator++()` triggers a refill; but in the state with exactly one element
remaining (e.g. the output buffer staged for a one-element small run) it
returns true although the next advance empties the stream and triggers no
refill. -/
theorem next_output_would_block_counterexample :
    (smallRunMergerBuf 1).elementsRemaining ≠ 0 ∧
    nextOutputWouldBlock (smallRunMergerBuf 1) = true ∧
    advanceTriggersRefill (smallRunMergerBuf 1) = false := by
  decide

/-- Claim C7, amended: `next_output_would_block()` returns
`m_current_ptr + 1 == m_current_end`; for a non-empty merger this coincides
with "the next `operator++()` will trigger a refill" whenever at least two
elements remain, while with exactly one element remaining it returns true
although the next advance empties the stream without refilling. -/
theorem next_output_would_block_amended (s : MergerBuf)
    (h : 2 ≤ s.elementsRemaining) :
    nextOutputWouldBlock s = advanceTriggersRefill s := by
  rw [nextOutputWouldBlock, advanceTriggersRefill]
  have h2 : (s.elementsRemaining - 1 == 0) = false := by
    have h3 : s.elementsRemaining - 1 ≠ 0 := by omega
    simpa using h3
  rw [h2, Bool.not_false, Bool.and_true]

/-- Claim C8, counterexample: `finish_clear()` is claimed to clear the result
descriptor in every state; but called in the INPUT state (here: a fresh
sorter after one `push`), it only finalizes and deallocates the creator, and
the finalized descriptor retains its element: its element count is 1, not
0. -/
theorem finish_clear_counterexample :
    (Sorter.push cfgW (Sorter.init Nat) 5).st = SorterSt.input ∧
    (Sorter.finishClear cfgW (Sorter.push cfgW (Sorter.init Nat)
      5)).creator.result.elements = 1 := by
  constructor
  · rfl
  · rfl

/-- Claim C8, amended: `finish_clear()` is valid in any state; in the OUTPUT
state it deallocates the merger and the creator buffers and clears the result
descriptor (no runs, no elements); in the INPUT state it behaves exactly like
`finish()`: buffers are deallocated and the finalized result descriptor is
retained, not cleared. -/
theorem finish_clear_amended {α : Type} (cfg : Config α) (s : Sorter α) :
    (s.st = SorterSt.output → s.creator.resultComputed = true →
      (Sorter.finishClear cfg s).creator.result =
        SortedRunsD.clear s.creator.result ∧
      (Sorter.finishClear cfg s).mergerOut = []) ∧
    (s.st = SorterSt.input →
      Sorter.finishClear cfg s = Sorter.finish cfg s) := by
  constructor
  · intro hst hcomp
    rw [Sorter.finishClear, if_pos hst]
    refine ⟨?_, rfl⟩
    show (({ s.creator.resultFinish cfg with
        result := (s.creator.resultFinish cfg).result.clear } :
        PushCreator α).resultFinish cfg).result =
      SortedRunsD.clear s.creator.result
    rw [PushCreator.resultFinish,
      if_pos (resultFinish_computed cfg s.creator)]
    rfl
  · intro hst
    rw [Sorter.finishClear, Sorter.finish, if_neg (by rw [hst]; simp),
      if_neg (by rw [hst]; simp)]

/-- Claim C10: for the merger's run-cursor comparator `run_cursor2_cmp`,
whenever the right cursor is empty the comparison returns true regardless of
the left cursor (in particular empty-vs-empty, including a cursor against
itself, returns true, so irreflexivity fails for empty cursors); an empty
left cursor against a non-empty right cursor returns false; every non-empty
cursor compares less than every empty cursor; and irreflexivity holds for
non-empty cursors whenever `cmp` is irreflexive at the current value. -/
theorem run_cursor2_cmp_spec {α : Type} (cmp : α → α → Bool) :
    (∀ a b : RunCursor α, b.isEmpty = true → runCursor2Cmp cmp a b = true) ∧
    (∀ a : RunCursor α, a.isEmpty = true → runCursor2Cmp cmp a a = true) ∧
    (∀ a b : RunCursor α, a.isEmpty = true → b.isEmpty = false →
      runCursor2Cmp cmp a b = false) ∧
    (∀ a b : RunCursor α, a.isEmpty = false → b.isEmpty = true →
      runCursor2Cmp cmp a b = true) ∧
    (∀ a : RunCursor α, a.isEmpty = false → cmp a.cur a.cur = false →
      runCursor2Cmp cmp a a = false) := by
  refine ⟨?_, ?_, ?_, ?_, ?_⟩
  · intro a b hb
    rw [runCursor2Cmp, if_pos hb]
  · intro a ha
    rw [runCursor2Cmp, if_pos ha]
  · intro a b ha hb
    rw [runCursor2Cmp, if_neg (by rw [hb]; simp), if_pos ha]
  · intro a b _ hb
    rw [runCursor2Cmp, if_pos hb]
  · intro a ha hirr
    rw [runCursor2Cmp, if_neg (by rw [ha]; simp), if_neg (by rw [ha]; simp)]
    exact hirr

/-! ### Concrete witnesses -/

theorem sorter_drain_sorted_permutation_witness :
    sorterOutW.mergerOut.Pairwise (fun a b => cfgW.cmp b a = false) ∧
    sorterOutW.mergerOut.Perm [3, 1, 2] :=
  sorter_drain_sorted_permutation cfgW [3, 1, 2] sorterOutW (by decide)
    (by decide) (by decide)
    (fun a b c h1 h2 => by
      simp [cfgW, natLtCmp] at h1 h2 ⊢
      omega)
    (fun a b h1 => by
      simp [cfgW, natLtCmp] at h1 ⊢
      omega)
    (by decide)
    (fun x hx => by
      fin_cases hx <;> decide)
    rfl

theorem sorter_rewind_identical_drain_witness :
    Sorter.rewind cfgW sorterOutW = Except.ok sorterOutW :=
  sorter_rewind_identical_drain cfgW (by decide) sorterW sorterOutW rfl

theorem small_input_optimization_witness :
    ((PushCreator.pushAll cfgSmallW (PushCreator.init Nat)
        [7, 3, 5]).computeResult cfgSmallW).result.smallRun =
      internalSort cfgSmallW.cmp [7, 3, 5] ∧
    ((PushCreator.pushAll cfgSmallW (PushCreator.init Nat)
        [7, 3, 5]).computeResult cfgSmallW).bids = 0 ∧
    ((PushCreator.pushAll cfgSmallW (PushCreator.init Nat)
        [7, 3, 5]).computeResult cfgSmallW).result.runs = [] ∧
    mergerInitialize cfgSmallW ((PushCreator.pushAll cfgSmallW
        (PushCreator.init Nat) [7, 3, 5]).computeResult cfgSmallW).result =
      Except.ok (((PushCreator.pushAll cfgSmallW (PushCreator.init Nat)
        [7, 3, 5]).computeResult cfgSmallW).result,
        internalSort cfgSmallW.cmp [7, 3, 5]) ∧
    (basicComputeResult cfgSmallW [7, 3, 5]).1.smallRun =
      internalSort cfgSmallW.cmp [7, 3, 5] ∧
    (basicComputeResult cfgSmallW [7, 3, 5]).2 = 0 ∧
    (basicComputeResult cfgSmallW [7, 3, 5]).1.runs = [] ∧
    mergerInitialize cfgSmallW (basicComputeResult cfgSmallW [7, 3, 5]).1 =
      Except.ok ((basicComputeResult cfgSmallW [7, 3, 5]).1,
        internalSort cfgSmallW.cmp [7, 3, 5]) :=
  small_input_optimization cfgSmallW [7, 3, 5] (by decide) (by decide)
    (by decide)

theorem creator_insufficient_memory_iff_witness :
    creatorCtorCheck natLtCmp 0 100 4 1 6 =
      Except.error CtorError.insufficientMemory ∧
    creatorCtorCheck natLtCmp 0 100 4 1 16 = Except.ok (16 / 4 / 1) :=
  ⟨(creator_insufficient_memory_iff natLtCmp 0 100 4 1 6
      (by decide)).1.mpr (by decide),
   (creator_insufficient_memory_iff natLtCmp 0 100 4 1 16
      (by decide)).2 (by decide)⟩

theorem merger_recursive_memory_check_witness :
    isOkB (mergerInitialize cfgBoundary descTen) = true ∧
    (mergerInitResultD cfgBoundary descTen).runs.length ≤
      cfgBoundary.maxArity ∧
    (mergerInitResultD cfgBoundary descTen).runs.length +
      cfgBoundary.minPrefetchBuffers ≤ cfgBoundary.inputBuffers ∧
    mergerInitialize cfgAbortW descTen =
      Except.error MergerError.insufficientMemory := by
  have h1 := (merger_recursive_memory_check cfgBoundary descTen (by decide)
    (by decide) rfl (by decide)).2 (by decide)
  have h2 := (merger_recursive_memory_check cfgAbortW descTen (by decide)
    (by decide) rfl (by decide)).1.mpr (by decide)
  exact ⟨h1.1, h1.2.1, h1.2.2, h2⟩

theorem consume_sequence_intra_run_order_witness :
    ([⟨(0, 0), 1⟩, ⟨(0, 1), 5⟩] : List (TriggerEntry Nat)).Sublist
      (consumeSeq natLtCmp demoRuns) ∧
    ([⟨(1, 0), 2⟩, ⟨(1, 1), 5⟩] : List (TriggerEntry Nat)).Sublist
      (consumeSeq natLtCmp demoRuns) := by
  have h := consume_sequence_intra_run_order natLtCmp
    (fun a b c h1 h2 => by
      simp [natLtCmp] at h1 h2 ⊢
      omega)
    (fun a b h1 => by
      simp [natLtCmp] at h1 ⊢
      omega)
    demoRuns (by decide)
  exact ⟨h.2 _ (by decide), h.2 _ (by decide)⟩

theorem next_output_would_block_amended_witness :
    nextOutputWouldBlock ⟨2, 0, 1⟩ = advanceTriggersRefill ⟨2, 0, 1⟩ :=
  next_output_would_block_amended ⟨2, 0, 1⟩ (by decide)

theorem finish_clear_amended_witness :
    ((Sorter.finishClear cfgW sorterOutW).creator.result =
        SortedRunsD.clear sorterOutW.creator.result ∧
      (Sorter.finishClear cfgW sorterOutW).mergerOut = []) ∧
    Sorter.finishClear cfgW (Sorter.init Nat) =
      Sorter.finish cfgW (Sorter.init Nat) :=
  ⟨(finish_clear_amended cfgW sorterOutW).1 rfl rfl,
   (finish_clear_amended cfgW (Sorter.init Nat)).2 rfl⟩

theorem sentinel_validation_iff_witness :
    natLtCmp 0 0 = false ∧ natLtCmp 0 100 = true ∧
    natLtCmp 100 0 = false ∧ natLtCmp 100 100 = false :=
  (sentinel_validation_iff natLtCmp 0 100 4 1).mp
    ⟨fun M hcon => by
      rw [creatorCtorCheck, if_neg (by decide)] at hcon
      by_cases hm : 2 * 4 * 1 ≤ M
      · rw [if_neg (by simpa using hm)] at hcon
        exact Except.noConfusion hcon
      · rw [if_pos (by simpa using hm)] at hcon
        simp at hcon,
     rfl⟩

theorem run_cursor2_cmp_spec_witness :
    runCursor2Cmp natLtCmp ⟨false, 3⟩ ⟨true, 0⟩ = true ∧
    runCursor2Cmp natLtCmp ⟨true, 0⟩ ⟨true, 0⟩ = true ∧
    runCursor2Cmp natLtCmp ⟨true, 0⟩ ⟨false, 3⟩ = false ∧
    runCursor2Cmp natLtCmp ⟨false, 3⟩ ⟨false, 3⟩ = false :=
  ⟨(run_cursor2_cmp_spec natLtCmp).2.2.2.1 ⟨false, 3⟩ ⟨true, 0⟩ rfl rfl,
   (run_cursor2_cmp_spec natLtCmp).2.1 ⟨true, 0⟩ rfl,
   (run_cursor2_cmp_spec natLtCmp).2.2.1 ⟨true, 0⟩ ⟨false, 3⟩ rfl rfl,
   (run_cursor2_cmp_spec natLtCmp).2.2.2.2 ⟨false, 3⟩ rfl (by decide)⟩

end Stxxl
